import Mathlib

/-!
Verification of the cells language server (CEL LSP) core against its
specification.  The Go source is shallowly embedded: byte streams are
`List Nat` (UTF-8 bytes), strings are Lean `String`s, fallible code
returns `Option`/`Except`, and the connection's concurrent behaviour is
modelled as a step relation over an explicit state.
-/

set_option maxHeartbeats 1000000

/-! ## Section 1: LSP request dispatch (internal/lsp/lsp.go, server.handle) -/

/-- Result of routing one inbound message, mirroring the `switch req.Method`
in `server.handle`: either the request is routed to a named handler (or
handled inline), or it falls to the `default` arm which answers with a
`jsonrpc2.Error` carrying `CodeMethodNotFound`. -/
inductive DispatchResult where
  | routed (handler : String)
  | methodNotFound
  deriving DecidableEq, Repr

/-- Constant `jsonrpc2.CodeMethodNotFound` from internal/jsonrpc2. -/
def CodeMethodNotFound : Int := -32601

/-- Embedding of `server.handle` (internal/lsp/lsp.go lines 66-94): the
method-name dispatch table.  Every case arm of the Go `switch` appears;
anything else hits the default arm and is answered with a
"method not supported" error of code `CodeMethodNotFound`. -/
def handle (method : String) : DispatchResult :=
  if method = "initialize" then .routed "initialize"
  else if method = "initialized" then .routed "noop"
  else if method = "shutdown" then .routed "noop"
  else if method = "exit" then .routed "close"
  else if method = "textDocument/didOpen" then .routed "didOpen"
  else if method = "textDocument/didChange" then .routed "didChange"
  else if method = "textDocument/didClose" then .routed "didClose"
  else if method = "textDocument/hover" then .routed "hover"
  else if method = "textDocument/diagnostic" then .routed "diagnosticFull"
  else if method = "textDocument/semanticTokens/full" then .routed "semanticTokensFull"
  else .methodNotFound

/-- The editor-protocol request methods that the spec lists as implemented
atop the core beyond hover/diagnostics/semantic tokens: formatting, rename,
prepare-rename, references, document highlighting, completion, signature
help, and inlay hints.  Handlers for all of these exist in the repository
(`server.formatting`, `server.rename`, `server.prepareRename`,
`server.references`, `server.documentHighlight`, `server.completion`,
`server.signatureHelp`, `server.inlayHints`). -/
def extendedFeatureMethods : List String :=
  [ "textDocument/formatting"
  , "textDocument/rename"
  , "textDocument/prepareRename"
  , "textDocument/references"
  , "textDocument/documentHighlight"
  , "textDocument/completion"
  , "textDocument/signatureHelp"
  , "textDocument/inlayHint" ]

/-! ## Section 2: frame codec (internal/jsonrpc2: readFrame / Conn.writeMessage)

Byte streams are `List Nat` with each element a byte value.  The framing
header is ASCII, so we spell it out as byte values once and for all. -/

/-- The bytes of the ASCII string `"Content-Length: "`, the header name that
`readFrame` recognises (via `strings.CutPrefix`) and `Conn.writeMessage`
emits. -/
def clHeaderBytes : List Nat :=
  [67, 111, 110, 116, 101, 110, 116, 45, 76, 101, 110, 103, 116, 104, 58, 32]

/-- Big-endian ASCII decimal digits of `n`, as produced by Go's `%d`
formatting in `Conn.writeMessage`'s `fmt.Sprintf("Content-Length: %d\r\n\r\n", len(data))`.
Fuel-structured so it evaluates by kernel reduction; `fuel = n + 1` always
suffices since `n / 10 < n` for `n ≥ 10`. -/
def toDigitsBE : Nat → Nat → List Nat
  | 0, _ => []
  | fuel + 1, n =>
    if n < 10 then [n + 48]
    else toDigitsBE fuel (n / 10) ++ [n % 10 + 48]
termination_by structural fuel _ => fuel

/-- Decimal rendering of `n` in ASCII bytes. -/
def digitsOf (n : Nat) : List Nat := toDigitsBE (n + 1) n

/-- Embedding of `Conn.writeMessage` after `json.Marshal`: the wire bytes are
the `Content-Length` header, CRLF CRLF, then the payload verbatim. -/
def writeMessage (payload : List Nat) : List Nat :=
  clHeaderBytes ++ digitsOf payload.length ++ [13, 10, 13, 10] ++ payload

/-- Digit-accumulating loop of Go `strconv.Atoi`: every byte must be an ASCII
digit; the value is built most-significant first. -/
def atoiDigits : Nat → List Nat → Option Nat
  | acc, [] => some acc
  | acc, c :: cs =>
    if 48 ≤ c ∧ c ≤ 57 then atoiDigits (acc * 10 + (c - 48)) cs else none

/-- Embedding of `strconv.Atoi` on the header value bytes: an optional sign
followed by at least one digit.  (Overflow of 64-bit ints is not modelled;
header lengths produced by the codec never approach it.) -/
def atoi (l : List Nat) : Option Int :=
  match l with
  | [] => none
  | c :: cs =>
    let s := if c = 45 || c = 43 then cs else c :: cs
    if s.isEmpty then none
    else
      match atoiDigits 0 s with
      | none => none
      | some v => some (if c = 45 then -(v : Int) else (v : Int))

/-- Embedding of the Go call ReadString with the LF delimiter on a `bufio.Reader`: the line up to and including the first
LF byte, and the remaining stream.  `none` models the error return when the
stream ends before a LF is found. -/
def readString : List Nat → Option (List Nat × List Nat)
  | [] => none
  | b :: rest =>
    if b = 10 then some ([b], rest)
    else
      match readString rest with
      | some (line, rem) => some (b :: line, rem)
      | none => none

/-- Embedding of `strings.TrimRight` with the CRLF cutset: strip trailing CR and LF bytes. -/
def trimRightCRLF (l : List Nat) : List Nat :=
  (l.reverse.dropWhile (fun c => c = 13 || c = 10)).reverse

/-- Embedding of the Go standard strings cut helper: if `l` starts with `p`, the remainder after `p`. -/
def cutPfx : List Nat → List Nat → Option (List Nat)
  | [], l => some l
  | _ :: _, [] => none
  | p :: ps, c :: cs => if p = c then cutPfx ps cs else none

/-- Decode-side error taxonomy of `readFrame`: every branch that the Go code
treats as fatal for the connection. -/
inductive FrameError where
  | eof                -- ReadString / io.ReadFull hit end of stream
  | badContentLength   -- strconv.Atoi failed ("bad Content-Length")
  | missingLength      -- no Content-Length header, or it parsed as 0
  | negativeLength     -- Atoi produced a negative count (Go panics in make)
  deriving DecidableEq, Repr

/-- Header loop of `readFrame`: read lines until a blank one, remembering the
last `Content-Length` value.  Fuel-structured on the stream length: each
successful `readString` consumes at least one byte. -/
def readHeaders : Nat → List Nat → Int → Except FrameError (Int × List Nat)
  | 0, _, _ => .error .eof
  | fuel + 1, input, acc =>
    match readString input with
    | none => .error .eof
    | some (line, rest) =>
      let l := trimRightCRLF line
      if l = [] then .ok (acc, rest)
      else
        match cutPfx clHeaderBytes l with
        | some value =>
          match atoi value with
          | none => .error .badContentLength
          | some n => readHeaders fuel rest n
        | none => readHeaders fuel rest acc
termination_by structural fuel _ _ => fuel

/-- Embedding of `readFrame` (internal/jsonrpc2): parse the header block,
then read exactly `contentLength` body bytes; returns the body and the rest
of the stream.  A stream that ends before the declared count is an error
(`io.ReadFull`), never a short body. -/
def readFrame (input : List Nat) : Except FrameError (List Nat × List Nat) :=
  match readHeaders (input.length + 1) input 0 with
  | .error e => .error e
  | .ok (contentLength, rest) =>
    if contentLength = 0 then .error .missingLength
    else if contentLength < 0 then .error .negativeLength
    else if rest.length < contentLength.toNat then .error .eof
    else .ok (rest.take contentLength.toNat, rest.drop contentLength.toNat)

/-! ## Section 3: connection pending-call bookkeeping (internal/jsonrpc2: Conn)

`Conn` owns a call-sequence counter `seq` — a Go `uint64`, so increments
wrap at `2^64` — and a pending map `pend : map[uint64]*pending`.  We model
the map by its key list and the events that touch it.  Replies are
unmarshalled into an `ID` that can be numeric, a string, or absent
(zero-valued); the read loop matches pending calls purely by the id's
`Num` field. -/

/-- The wrap modulus of Go's `uint64` (`Conn.seq`, pending-map keys). -/
def UINT64_MOD : Nat := 2 ^ 64

/-- The `ID` of an unmarshalled inbound response (`jsonrpc2.ID`): a numeric
value in `num`, a string value in `str`, and the `isString` tag.  A JSON
string id sets `str`/`isString` and leaves `num` at its zero value 0; an
absent id leaves the whole struct zero-valued. -/
structure WireID where
  num : Nat
  str : String
  isString : Bool
  deriving DecidableEq, Repr

/-- How a pending call is resolved, mirroring the three exits of
`Conn.Call`'s `select` and the read loop's deferred cleanup. -/
inductive CallResolution where
  | reply      -- readLoop looked up p := pend[resp.ID.Num] and sent on p.ch
  | closed     -- readLoop's defer closed p.ch; Call returns ErrClosed
  | cancelled  -- ctx.Done() fired; Call deleted its entry, returns ctx.Err()
  deriving DecidableEq, Repr

/-- The events that touch `Conn.seq` / `Conn.pend`:
`call` is the registration block of `Conn.Call` (id := seq; seq++;
pend[id] = p); `cancel id` is `Call`'s ctx.Done/marshal-error/write-error
paths (delete(pend, id)); `response rid` is `readLoop`'s reply branch with
the unmarshalled wire id; `closeLoop` is `readLoop`'s deferred cleanup. -/
inductive ConnEvent where
  | call
  | cancel (id : Nat)
  | response (rid : WireID)
  | closeLoop
  deriving DecidableEq, Repr

/-- The connection's call-correlation state: the sequence counter (a
`uint64`, kept below `UINT64_MOD`) and the keys of the pending map. -/
structure ConnState where
  seq : Nat
  pend : List Nat
  deriving DecidableEq, Repr

/-- A fresh connection (`NewConn`): counter 0, no pending calls. -/
def initConn : ConnState := ⟨0, []⟩

/-- One event's effect on the connection state, together with the
resolutions delivered to waiting callers.  `call` increments the counter
modulo `2^64`; the map assignment `c.pend[id] = p` replaces the slot on a
key collision (possible only after the counter wraps), so the key list
gains the id only when absent.  `readLoop` matches a response purely by
`resp.ID.Num` (part_010: `p := c.pend[resp.ID.Num]`): the `isString` tag
and `str` value are never consulted, so a string or absent wire id acts as
Num 0.  A `cancel`/`response` for a Num with no pending entry is a no-op
that resolves nothing (`delete` of an absent key; `p == nil` skip). -/
def connStep (s : ConnState) (e : ConnEvent) : ConnState × List (Nat × CallResolution) :=
  match e with
  | .call =>
    ({ seq := (s.seq + 1) % UINT64_MOD
     , pend := if s.seq ∈ s.pend then s.pend else s.seq :: s.pend }, [])
  | .cancel id =>
    if id ∈ s.pend then ({ s with pend := s.pend.erase id }, [(id, .cancelled)])
    else (s, [])
  | .response rid =>
    if rid.num ∈ s.pend then
      ({ s with pend := s.pend.erase rid.num }, [(rid.num, .reply)])
    else (s, [])
  | .closeLoop => ({ s with pend := [] }, s.pend.map (fun id => (id, .closed)))

/-- Run a sequence of events, accumulating the delivered resolutions. -/
def connRun (s : ConnState) : List ConnEvent → ConnState × List (Nat × CallResolution)
  | [] => (s, [])
  | e :: es =>
    let step := connStep s e
    let rest := connRun step.1 es
    (rest.1, step.2 ++ rest.2)

/-- The connection invariant: the counter is a `uint64` value, every
pending id was drawn from the counter before any wrap (so it is strictly
below `seq`), and no id is pending twice. -/
def ConnInv (s : ConnState) : Prop :=
  s.seq < UINT64_MOD ∧ (∀ id ∈ s.pend, id < s.seq) ∧ s.pend.Nodup

instance (s : ConnState) : Decidable (ConnInv s) := by
  unfold ConnInv
  infer_instance

/-- An event resolves the call `id` if it is that call's cancellation, a
response whose unmarshalled id has `Num = id`, or the read loop
terminating. -/
def resolves (e : ConnEvent) (id : Nat) : Prop :=
  match e with
  | .call => False
  | .cancel j => j = id
  | .response rid => rid.num = id
  | .closeLoop => True

instance : ∀ (e : ConnEvent) (id : Nat), Decidable (resolves e id)
  | .call, _ => isFalse (fun h => h)
  | .cancel j, id => Nat.decEq j id
  | .response rid, id => Nat.decEq rid.num id
  | .closeLoop, _ => isTrue trivial

/-- Whether an event increments the call-sequence counter. -/
def callWeight : ConnEvent → Nat
  | .call => 1
  | .cancel _ => 0
  | .response _ => 0
  | .closeLoop => 0

/-- The number of `call` events in a trace (each increments the counter
once). -/
def callCount : List ConnEvent → Nat
  | [] => 0
  | e :: es => callWeight e + callCount es

/-- Does an unmarshalled reply id equal the id of an outgoing call?
`Conn.Call` sends `ID{Num: id}` — numeric, `IsString` false — so equality
of ids requires a numeric wire id with the same `Num`. -/
def wireIDMatches (rid : WireID) (callId : Nat) : Prop :=
  rid.isString = false ∧ rid.num = callId

instance (rid : WireID) (callId : Nat) : Decidable (wireIDMatches rid callId) := by
  unfold wireIDMatches
  infer_instance

/-! ## Section 4: diagnostics (computeDiagnostics / cleanMessage, lsp package)

Document text is again `List Nat` (UTF-8 bytes); messages are `String`s.
The external cel-go parser/checker is abstracted by the lists of issues it
reports for a document. -/

/-- LSP diagnostic severity as used by the server: `protocol.SeverityError`
(1) and `protocol.SeverityWarning` (2). -/
inductive DiagnosticSeverity where
  | error
  | warning
  deriving DecidableEq, Repr

/-- A protocol position (0-based line, UTF-16 column — all C4 inputs are
ASCII so the column is a byte count there). -/
structure Position where
  line : Nat
  character : Nat
  deriving DecidableEq, Repr

structure Range where
  start : Position
  «end» : Position
  deriving DecidableEq, Repr

/-- One structured error from the external cel-go parser or checker:
1-based line, 0-based column, message (`common.Error`). -/
structure CelIssue where
  line : Int
  col : Int
  message : String
  deriving DecidableEq, Repr

/-- The external analysis outcome for one document: `Parse` issues and
(when parsing succeeded) `Check` issues.  `Issues.Err() != nil` holds iff
the respective list is non-empty. -/
structure CelAnalysis where
  parseErrors : List CelIssue
  checkErrors : List CelIssue
  deriving DecidableEq, Repr

structure Diagnostic where
  range : Range
  severity : DiagnosticSeverity
  source : String
  message : String
  deriving DecidableEq, Repr

/-- The single-quote character, built numerically (ASCII 39). -/
def sqChar : Char := Char.ofNat 39

/-- Wrap a string in single quotes, as cel-go messages and `cleanMessage`
do. -/
def quoteStr (s : String) : String := String.singleton sqChar ++ s ++ String.singleton sqChar

/-- Modelled from the external dependency cel-go
(`common/operators.FindReverse`): the reverse lookup table from internal
operator function names to their user-facing symbols. -/
def reverseOperators : List (String × String) :=
  [ ("_+_", "+"), ("_-_", "-"), ("_*_", "*"), ("_/_", "/"), ("_%_", "%")
  , ("_==_", "=="), ("_!=_", "!="), ("_<_", "<"), ("_<=_", "<=")
  , ("_>_", ">"), ("_>=_", ">="), ("_&&_", "&&"), ("_||_", "||")
  , ("!_", "!"), ("-_", "-"), ("@in", "in"), ("_in_", "in") ]

/-- cel-go `operators.FindReverse`. -/
def findReverse (symbol : String) : Option String := reverseOperators.lookup symbol

/-- Scan to the next single quote: the characters before it and those after
it.  `none` when no quote remains (the regex `'([^']+)'` then cannot match
from the current position onward). -/
def takeToQuote : List Char → Option (List Char × List Char)
  | [] => none
  | c :: cs =>
    if c = sqChar then some ([], cs)
    else
      match takeToQuote cs with
      | some (pre, post) => some (c :: pre, post)
      | none => none

/-- The replacement `cleanMessage` makes for one regex match `'inner'`:
swap in the user-facing symbol when `operators.FindReverse` knows the
quoted text and returns a non-empty display form, else keep the match. -/
def replaceMatch (inner : List Char) : List Char :=
  match findReverse (String.mk inner) with
  | some display => if display ≠ "" then sqChar :: (display.toList ++ [sqChar]) else sqChar :: (inner ++ [sqChar])
  | none => sqChar :: (inner ++ [sqChar])

/-- The scan of `operatorNameRe.ReplaceAllStringFunc`: leftmost matches of
`'([^']+)'` (a quote, one-or-more non-quotes, a quote), non-overlapping;
everything else is copied through.  Fuel-structured on the text length. -/
def cleanAux : Nat → List Char → List Char
  | 0, cs => cs
  | _ + 1, [] => []
  | fuel + 1, c :: cs =>
    if c = sqChar then
      match takeToQuote cs with
      | some (inner, rest) =>
        if inner.isEmpty then c :: cleanAux fuel cs
        else replaceMatch inner ++ cleanAux fuel rest
      | none => c :: cleanAux fuel cs
    else c :: cleanAux fuel cs
termination_by structural fuel _ => fuel

/-- Embedding of `cleanMessage`: rewrite quoted cel-go internal operator
names to their user-facing forms via `operators.FindReverse`. -/
def cleanMessage (msg : String) : String := String.mk (cleanAux msg.length msg.toList)

/-- Byte count from here to the next LF or end of text (inner loop of
`endOfLine`). -/
def lineLenFrom : List Nat → Nat
  | [] => 0
  | b :: rest => if b = 10 then 0 else lineLenFrom rest + 1

/-- Walk of `endOfLine`: find the 0-based `target` line and report the
position at its end; past end-of-text the fallback is column 0. -/
def eolGo : List Nat → Nat → Nat → Position
  | [], _, target => ⟨target, 0⟩
  | b :: rest, curLine, target =>
    if curLine = target then ⟨target, lineLenFrom (b :: rest)⟩
    else eolGo rest (if b = 10 then curLine + 1 else curLine) target

/-- Embedding of `endOfLine` (lsp package): the Position at the end of the
given 0-based line of `content`. -/
def endOfLine (content : List Nat) (line : Nat) : Position := eolGo content 0 line

/-- Constant `serverName` of the lsp package. -/
def serverName : String := "cells"

/-- Embedding of `issuesToDiagnostics`: convert each cel-go issue to an LSP
diagnostic: 1-based line becomes 0-based (clamped at 0, as is a negative
column), the end position is the end of the start line, and the message is
cleaned. -/
def issuesToDiagnostics (content : List Nat) (errs : List CelIssue)
    (severity : DiagnosticSeverity) : List Diagnostic :=
  errs.map fun e =>
    let line : Int := max (e.line - 1) 0
    let col : Int := max e.col 0
    { range :=
        { start := ⟨line.toNat, col.toNat⟩
        , «end» := endOfLine content line.toNat }
    , severity := severity
    , source := serverName
    , message := cleanMessage e.message }

/-- A byte Go's `strings.TrimSpace` discards (ASCII whitespace; the larger
unicode space set is irrelevant for single bytes of valid UTF-8 text). -/
def isSpaceByte (b : Nat) : Bool :=
  b = 32 || b = 9 || b = 10 || b = 13 || b = 11 || b = 12

/-- Embedding of `computeDiagnostics`: blank documents get no diagnostics;
parse failures map to error-severity diagnostics; check failures (with a
clean parse) map to warning-severity diagnostics; otherwise none. -/
def computeDiagnostics (content : List Nat) (analysis : CelAnalysis) : List Diagnostic :=
  if content.all isSpaceByte then []
  else if analysis.parseErrors ≠ [] then
    issuesToDiagnostics content analysis.parseErrors .error
  else if analysis.checkErrors ≠ [] then
    issuesToDiagnostics content analysis.checkErrors .warning
  else []

/-- Does `needle` start `hay`? -/
def startsWithL : List Char → List Char → Bool
  | [], _ => true
  | _ :: _, [] => false
  | a :: as, b :: bs => a = b && startsWithL as bs

/-- Does `needle` occur inside `hay` (substring containment)? -/
def containsL : List Char → List Char → Bool
  | n, [] => startsWithL n []
  | n, c :: cs => startsWithL n (c :: cs) || containsL n cs

/-- Embedding of `strings.Contains` on the embedded strings. -/
def strContains (hay needle : String) : Bool := containsL needle.toList hay.toList

/-- The document `1 + "hello"` as UTF-8 bytes. -/
def contentOnePlusHello : List Nat := [49, 32, 43, 32, 34, 104, 101, 108, 108, 111, 34]

/-- The document `1 +` as UTF-8 bytes. -/
def contentOnePlus : List Nat := [49, 32, 43]

/-- Modelled from the spec: the external cel-go outcome for `1 + "hello"` —
the parse succeeds and the type-check fails with exactly one error whose
message quotes the internal operator spelling `_+_` (cel-go's
"found no matching overload" error at the operator position). -/
def analysisOnePlusHello : CelAnalysis :=
  { parseErrors := []
  , checkErrors :=
      [ ⟨1, 2, "found no matching overload for " ++ quoteStr "_+_" ++
          " applied to " ++ quoteStr "(int, string)"⟩ ] }

/-- Modelled from the spec: the external cel-go outcome for `1 +` — the
parse fails with a syntax error at the end of input. -/
def analysisOnePlus : CelAnalysis :=
  { parseErrors :=
      [ ⟨1, 3, "Syntax error: mismatched input " ++ quoteStr "<EOF>" ++
          " expecting an expression"⟩ ]
  , checkErrors := [] }

/-! ## Section 5: hover candidate selection (computeHover, lsp package) -/

/-- One hover candidate as collected by `computeHover`'s `collectHover`:
a half-open byte range and the rendered markdown. -/
structure HoverInfo where
  byteStart : Int
  byteEnd : Int
  markdown : String
  deriving DecidableEq, Repr

/-- Does the candidate's range contain the target byte offset
(`targetOffset >= h.byteStart && targetOffset < h.byteEnd`)? -/
def hoverContains (t : Int) (h : HoverInfo) : Bool :=
  h.byteStart ≤ t && t < h.byteEnd

/-- The candidate's range width (`h.byteEnd - h.byteStart`). -/
def hoverWidth (h : HoverInfo) : Int := h.byteEnd - h.byteStart

/-- The selection loop of `computeHover` ("Find the most specific
(smallest) hover that contains the target offset"): scan the candidates in
traversal order, replacing the current best only on a strictly smaller
width. -/
def selectFold (t : Int) : List HoverInfo → Option HoverInfo → Option HoverInfo
  | [], best => best
  | h :: rest, best =>
    selectFold t rest
      (if hoverContains t h then
        match best with
        | none => some h
        | some b => if hoverWidth h < hoverWidth b then some h else some b
      else best)

/-- Embedding of `computeHover`'s candidate selection (part of
`computeHover`, lsp package): the best hover among the collected
candidates for the target offset. -/
def selectBestHover (hovers : List HoverInfo) (targetOffset : Int) : Option HoverInfo :=
  selectFold targetOffset hovers none

/-! ## Section 6: document store (server.didOpen / server.didChange,
internal/lsp/lsp.go)

`server.files` is `map[protocol.DocumentURI]*file`; we model it as an
association list from URI to the stored `file` record (minus the redundant
uri field). -/

/-- The stored per-document record (`file`, internal/lsp, minus its `uri`
field which duplicates the map key): protocol version integer and full
text. -/
structure DocFile where
  version : Int
  content : String
  deriving DecidableEq, Repr

/-- Map lookup `s.files[uri]`. -/
def storeGet : List (String × DocFile) → String → Option DocFile
  | [], _ => none
  | (u, f) :: rest, uri => if u = uri then some f else storeGet rest uri

/-- Map assignment `s.files[uri] = f`. -/
def storeSet : List (String × DocFile) → String → DocFile → List (String × DocFile)
  | [], uri, f => [(uri, f)]
  | (u, g) :: rest, uri, f =>
    if u = uri then (uri, f) :: rest else (u, g) :: storeSet rest uri f

/-- Embedding of `server.didOpen`: store the document wholesale and publish
diagnostics for (uri, version, content). -/
def didOpen (files : List (String × DocFile)) (uri : String) (version : Int)
    (text : String) : List (String × DocFile) × (String × Int × String) :=
  (storeSet files uri ⟨version, text⟩, (uri, version, text))

/-- Embedding of `server.didChange`: an unknown URI is an error (store
untouched); otherwise the version is set unconditionally to the
notification's version, the text is replaced by the first content change
when one is present (full sync), and diagnostics are published for the
resulting (uri, version, content). -/
def didChange (files : List (String × DocFile)) (uri : String) (version : Int)
    (contentChanges : List String) :
    Except String (List (String × DocFile) × (String × Int × String)) :=
  match storeGet files uri with
  | none => .error "received update for file that was not open"
  | some f =>
    let newContent :=
      match contentChanges with
      | [] => f.content
      | c :: _ => c
    .ok (storeSet files uri ⟨version, newContent⟩, (uri, version, newContent))

/-- A document-lifecycle notification (didOpen or didChange) as it reaches
the store. -/
inductive DocEvent where
  | opened (uri : String) (version : Int) (text : String)
  | change (uri : String) (version : Int) (changes : List String)
  deriving DecidableEq, Repr

/-- Apply one notification to the store; a didChange handler error leaves
the store untouched. -/
def applyEvent (files : List (String × DocFile)) : DocEvent → List (String × DocFile)
  | .opened uri v t => (didOpen files uri v t).1
  | .change uri v cs =>
    match didChange files uri v cs with
    | .ok (files', _) => files'
    | .error _ => files

/-- Apply a sequence of notifications in receipt order. -/
def applyEvents (files : List (String × DocFile)) : List DocEvent → List (String × DocFile)
  | [] => files
  | e :: es => applyEvents (applyEvent files e) es

/-- The version an event carries for `uri`, if it addresses `uri`. -/
def eventVersionFor (uri : String) : DocEvent → Option Int
  | .opened u v _ => if u = uri then some v else none
  | .change u v _ => if u = uri then some v else none

/-- The client's notifications for `uri` carry non-decreasing versions,
starting from `v`. -/
def versionsMono (uri : String) : Int → List DocEvent → Bool
  | _, [] => true
  | v, e :: es =>
    match eventVersionFor uri e with
    | none => versionsMono uri v es
    | some v' => decide (v ≤ v') && versionsMono uri v' es

/-! ## Section 7: syntax walker and scope resolver (internal/lsp/rename.go,
walker helpers, position conversion)

The external cel-go AST (`ast.Expr`) is a kind-tagged tree; we embed it as
an inductive with the same kinds.  `call`'s `target` is `some` exactly when
`IsMemberFunction()` holds.  Recursive walkers take an explicit fuel
argument (the Go recursions terminate on tree depth; fuel strictly exceeds
the depth of every tree considered). -/

inductive CelExpr where
  | ident (id : Nat) (name : String)
  | call (id : Nat) (function : String) (target : Option CelExpr) (args : List CelExpr)
  | list (id : Nat) (elements : List CelExpr)
  | map (id : Nat) (entries : List (CelExpr × CelExpr))
  | struct (id : Nat) (fields : List CelExpr)
  | select (id : Nat) (operand : Option CelExpr) (field : String)
  | lit (id : Nat)
  | comprehension (id : Nat) (iterRange : CelExpr) (iterVar : String) (accuVar : String)
      (accuInit : CelExpr) (loopCond : CelExpr) (loopStep : CelExpr) (result : CelExpr)
  | unspecified (id : Nat)

/-- Accessor `ast.Expr.ID()`. -/
def CelExpr.exprId : CelExpr → Nat
  | .ident i _ => i
  | .call i _ _ _ => i
  | .list i _ => i
  | .map i _ => i
  | .struct i _ => i
  | .select i _ _ => i
  | .lit i => i
  | .comprehension i _ _ _ _ _ _ _ => i
  | .unspecified i => i

/-- The external `ast.SourceInfo`: a table from expr id to its rune-counted
half-open offset range (`GetOffsetRange`); absent ids have no range. -/
structure SourceInfo where
  offsets : List (Nat × Nat × Nat)

/-- Accessor `SourceInfo.GetOffsetRange`. -/
def getOffsetRange (si : SourceInfo) (id : Nat) : Option (Nat × Nat) :=
  match si.offsets.find? (fun e => e.1 = id) with
  | some (_, r) => some r
  | none => none

/-- Size in bytes of the UTF-8 sequence headed by byte `b` (the size
`utf8.DecodeRuneInString` reports; continuation or invalid head bytes give
size 1). -/
def utf8RuneSize (b : Nat) : Nat :=
  if b < 0x80 then 1
  else if b < 0xC0 then 1
  else if b < 0xE0 then 2
  else if b < 0xF0 then 3
  else 4

/-- Embedding of `celRuneOffsetToByteOffset` (walker helpers): advance one
decoded rune at a time until the rune offset is consumed or the text
ends. -/
def celRuneOffsetToByteOffset : List Nat → Nat → Nat
  | _, 0 => 0
  | [], _ + 1 => 0
  | b :: rest, r + 1 =>
    let size := utf8RuneSize b
    size + celRuneOffsetToByteOffset (rest.drop (size - 1)) r
termination_by structural _ r => r

/-- Embedding of `celOffsetRangeToByteRange`: the byte start of the range's
rune start, and that plus the rune width (the code adds the rune count as a
byte count, which agrees on ASCII text). -/
def celOffsetRangeToByteRange (s : List Nat) (startRune stopRune : Nat) : Nat × Nat :=
  let byteStart := celRuneOffsetToByteOffset s startRune
  (byteStart, byteStart + (stopRune - startRune))

/-- Decode one UTF-8 rune: (code point, byte size).  Valid sequences only
(the verified documents are ASCII); invalid heads decode as U+FFFD size
1, as in Go. -/
def decodeRune (l : List Nat) : Nat × Nat :=
  match l with
  | [] => (0xFFFD, 1)
  | b :: rest =>
    if b < 0x80 then (b, 1)
    else if b < 0xC0 then (0xFFFD, 1)
    else if b < 0xE0 then ((b - 0xC0) * 64 + (rest.getD 0 0) % 64, 2)
    else if b < 0xF0 then
      ((b - 0xE0) * 4096 + ((rest.getD 0 0) % 64) * 64 + (rest.getD 1 0) % 64, 3)
    else
      ((b - 0xF0) * 262144 + ((rest.getD 0 0) % 64) * 4096 +
        ((rest.getD 1 0) % 64) * 64 + (rest.getD 2 0) % 64, 4)

/-- UTF-16 code-unit length of a code point (`utf16.RuneLen` on valid
runes). -/
def utf16LenOfRune (r : Nat) : Nat := if r ≥ 0x10000 then 2 else 1

/-- Loop of `byteOffsetToLineCol`: decode runes until the byte offset is
reached, counting line feeds and UTF-16 units. -/
def b2lc : Nat → List Nat → Nat → Nat → Nat → Nat × Nat
  | 0, _, _, line, col => (line, col)
  | fuel + 1, text, offset, line, col =>
    match text, offset with
    | _, 0 => (line, col)
    | [], _ + 1 => (line, col)
    | b :: rest, o + 1 =>
      let rs := decodeRune (b :: rest)
      if rs.1 = 10 then b2lc fuel ((b :: rest).drop rs.2) (o + 1 - rs.2) (line + 1) 0
      else b2lc fuel ((b :: rest).drop rs.2) (o + 1 - rs.2) line (col + utf16LenOfRune rs.1)
termination_by structural fuel _ _ _ _ => fuel

/-- Embedding of `byteOffsetToLineCol` (walker helpers): 0-based line and
UTF-16 column of a byte offset. -/
def byteOffsetToLineCol (text : List Nat) (offset : Nat) : Nat × Nat :=
  b2lc (text.length + 1) text offset 0 0

/-- Loop of `lineColToByteOffset` (see below). -/
def lc2b : Nat → List Nat → Nat → Nat → Nat → Int
  | 0, _, _, _, _ => -1
  | fuel + 1, text, line, col, acc =>
    if line = 0 ∧ col = 0 then (acc : Int)
    else
      match text with
      | [] => -1
      | b :: rest =>
        let rs := decodeRune (b :: rest)
        if rs.1 = 10 then
          if line = 0 then -1
          else lc2b fuel ((b :: rest).drop rs.2) (line - 1) col (acc + rs.2)
        else
          if line = 0 then
            if col < utf16LenOfRune rs.1 then -1
            else lc2b fuel ((b :: rest).drop rs.2) 0 (col - utf16LenOfRune rs.1) (acc + rs.2)
          else lc2b fuel ((b :: rest).drop rs.2) line col (acc + rs.2)
termination_by structural fuel _ _ _ _ => fuel

/-- Modelled from the spec: `lineColToByteOffset` is code of this
repository used by computeRename/computeReferences/computeHover but absent
from src/.  Per spec §4.3 (`ByteOffsetOf`), it is a linear scan from the
start of the text counting line breaks and UTF-16 code-unit widths, and
out-of-range inputs return a sentinel "no valid offset" (negative). -/
def lineColToByteOffset (text : List Nat) (line col : Nat) : Int :=
  lc2b (text.length + 1) text line col 0

/-- Latin-1 fragment of Go's `unicode.IsLetter` (the code applies it to a
single byte cast to a rune). -/
def byteIsLetter (b : Nat) : Bool :=
  (65 ≤ b && b ≤ 90) || (97 ≤ b && b ≤ 122) || b = 170 || b = 181 || b = 186 ||
    (192 ≤ b && b ≤ 214) || (216 ≤ b && b ≤ 246) || (248 ≤ b && b ≤ 255)

/-- Embedding of `isIdentifierChar` (rename.go): letter, digit, or
underscore. -/
def isIdentifierChar (b : Nat) : Bool :=
  byteIsLetter b || (48 ≤ b && b ≤ 57) || b = 95

/-- UTF-8 encoding of one character. -/
def utf8Encode (c : Char) : List Nat :=
  let n := c.toNat
  if n < 0x80 then [n]
  else if n < 0x800 then [0xC0 + n / 64, 0x80 + n % 64]
  else if n < 0x10000 then [0xE0 + n / 4096, 0x80 + (n / 64) % 64, 0x80 + n % 64]
  else [0xF0 + n / 262144, 0x80 + (n / 4096) % 64, 0x80 + (n / 64) % 64, 0x80 + n % 64]

/-- The UTF-8 bytes of a string (Go strings are byte slices). -/
def strBytes (s : String) : List Nat := s.toList.flatMap utf8Encode

/-- Does `needle` start `hay` (byte-wise)? -/
def startsWithBytes : List Nat → List Nat → Bool
  | [], _ => true
  | _ :: _, [] => false
  | a :: as, b :: bs => a = b && startsWithBytes as bs

/-- Embedding of `strings.Index` on bytes: the first index at which
`needle` occurs in `hay`, if any. -/
def stringIndex (hay needle : List Nat) : Option Nat :=
  if startsWithBytes needle hay then some 0
  else
    match hay with
    | [] => none
    | _ :: t => (stringIndex t needle).map (· + 1)

/-- Embedding of `strings.Contains` on bytes. -/
def containsBytes (hay needle : List Nat) : Bool := (stringIndex hay needle).isSome

/-- Go slice `l[a:b]`. -/
def sliceBytes (l : List Nat) (a b : Nat) : List Nat := (l.take b).drop a

/-- Go index `l[i]` (callers bound-check first). -/
def byteAt (l : List Nat) (i : Nat) : Nat := l.getD i 0

/-- The child expressions in the order every walker in the source recurses
(each Go walker repeats the same switch): call arguments then member
target; list elements; map entry keys and values; struct field values;
select operand; comprehension iter-range, accu-init, loop-condition,
loop-step, result. -/
def CelExpr.children : CelExpr → List CelExpr
  | .ident _ _ => []
  | .call _ _ target args => args ++ (match target with | some t => [t] | none => [])
  | .list _ elements => elements
  | .map _ entries => entries.flatMap (fun e => [e.1, e.2])
  | .struct _ fields => fields
  | .select _ operand _ => (match operand with | some o => [o] | none => [])
  | .lit _ => []
  | .comprehension _ iterRange _ _ accuInit loopCond loopStep result =>
    [iterRange, accuInit, loopCond, loopStep, result]
  | .unspecified _ => []

/-- Type `identifierKind` (rename.go). -/
inductive IdentifierKind where
  | unknown
  | topLevel
  | loopVar
  | function
  deriving DecidableEq, Repr

/-- Type `identifierInfo` (rename.go). -/
structure IdentifierInfo where
  name : String
  exprID : Nat
  kind : IdentifierKind
  deriving DecidableEq, Repr

/-- Type `scope` (rename.go): top level, or a loop variable of one
comprehension (with the macro name when recovered). -/
inductive RenameScope where
  | topLevel
  | loopVar (comprehensionID : Nat) (macroName : String)
  deriving DecidableEq, Repr

/-- A text edit produced by rename. -/
structure TextEdit where
  range : Range
  newText : String
  deriving DecidableEq, Repr

/-- Embedding of `isCELKeyword` (walker helpers): only `true`, `false`, `null`. -/
def isCELKeyword (name : String) : Bool :=
  name = "true" || name = "false" || name = "null"

/-- Embedding of `isCELMacroFunction` (walker helpers). -/
def isCELMacroFunction (f : String) : Bool :=
  f = "has" || f = "all" || f = "exists" || f = "exists_one" || f = "map" || f = "filter"

/-- ASCII fragment of Go `unicode.IsLetter` on a character (every
identifier checked in the verified inputs is ASCII). -/
def charIsLetter (c : Char) : Bool := c.isAlpha

/-- Embedding of `isValidIdentifier` (rename.go): letter or underscore,
then letters, digits or underscores. -/
def isValidIdentifier (s : String) : Bool :=
  match s.toList with
  | [] => false
  | c :: rest =>
    (charIsLetter c || c = '_') &&
      rest.all (fun ch => charIsLetter ch || ch.isDigit || ch = '_')

/-- Embedding of `validateNewName` (rename.go); `some` is the error. -/
def validateNewName (newName : String) : Option String :=
  if newName = "" then some "new name cannot be empty"
  else if ¬isValidIdentifier newName then some "invalid identifier"
  else if isCELKeyword newName then some "cannot rename to CEL keyword"
  else none

/-- Both-sides word-boundary check used by the loop-variable searches. -/
def wordBoundary (content : List Nat) (ls le : Nat) : Bool :=
  (ls = 0 || !isIdentifierChar (byteAt content (ls - 1))) &&
    (le ≥ content.length || !isIdentifierChar (byteAt content le))

/-- The candidates `findIdentifierAtPosition`'s walk records at one node
whose offset range is known and considered in range: identifiers
themselves; function names of calls when the cursor sits on the name as
found in the node's source slice; loop variables of macro-shaped calls;
and loop variables of expanded comprehensions (searched from the node's
start to the end of the document). -/
def fiapOwn (content : List Nat) (target : Nat)
    (e : CelExpr) (bs be : Nat) : List IdentifierInfo :=
  match e with
  | .ident i n => [⟨n, i, .topLevel⟩]
  | .call i f _ args =>
    let fb := strBytes f
    let c1 :=
      match stringIndex (sliceBytes content bs be) fb with
      | some rel =>
        let fs := rel + bs
        let fe := fs + fb.length
        if fs ≤ target ∧ target < fe then [⟨f, i, .function⟩] else []
      | none => []
    let c2 :=
      if isCELMacroFunction f && !args.isEmpty then
        match args.head? with
        | some (.ident _ lv) =>
          let lvb := strBytes lv
          match stringIndex (sliceBytes content bs be) lvb with
          | some rel =>
            let ls := bs + rel
            let le := ls + lvb.length
            if ls ≤ target ∧ target < le then
              if wordBoundary content ls le then [⟨lv, i, .topLevel⟩] else []
            else []
          | none => []
        | _ => []
      else []
    c1 ++ c2
  | .comprehension i _ lv _ _ _ _ _ =>
    let lvb := strBytes lv
    match stringIndex (content.drop bs) lvb with
    | some rel =>
      let ls := bs + rel
      let le := ls + lvb.length
      if wordBoundary content ls le then
        if ls ≤ target ∧ target < le then [⟨lv, i, .topLevel⟩] else []
      else []
    | none => []
  | _ => []

/-- Is the node a ComprehensionKind node? -/
def CelExpr.isComprehensionKind : CelExpr → Bool
  | .comprehension _ _ _ _ _ _ _ _ => true
  | _ => false

/-- The candidate-collecting walk of `findIdentifierAtPosition`
(rename.go): nodes without offset ranges are skipped together with their
children unless they are comprehensions; comprehensions with empty ranges
count as in range. -/
def fiapWalk (fuel : Nat) (si : SourceInfo) (content : List Nat) (target : Nat)
    (e : CelExpr) : List IdentifierInfo :=
  match fuel with
  | 0 => []
  | fuel + 1 =>
    match getOffsetRange si e.exprId with
    | some (rs, re) =>
      let br := celOffsetRangeToByteRange content rs re
      let isInRange :=
        (br.1 ≤ target ∧ target < br.2) ∨ (e.isComprehensionKind = true ∧ br.1 = br.2)
      let own := if isInRange then fiapOwn content target e br.1 br.2 else []
      own ++ e.children.flatMap (fiapWalk fuel si content target)
    | none =>
      if e.isComprehensionKind then e.children.flatMap (fiapWalk fuel si content target)
      else []
termination_by structural fuel

/-- The `checkWalk` refinement of `findIdentifierAtPosition`: the LAST
comprehension in pre-order whose loop variable matches and whose range
test passes (Go overwrites `bestCandidate.exprID` on every match and skips
only the matching node's own children). -/
def fiapCheckWalk (fuel : Nat) (si : SourceInfo) (content : List Nat) (target : Nat)
    (name : String) (e : CelExpr) : Option Nat :=
  match fuel with
  | 0 => none
  | fuel + 1 =>
    let here : Option Nat :=
      match e with
      | .comprehension i _ lv _ _ _ _ _ =>
        if lv = name then
          match getOffsetRange si i with
          | some (rs, re) =>
            let br := celOffsetRangeToByteRange content rs re
            if br.1 = br.2 then
              if br.1 < target ∧ target < br.1 + 1000 then some i else none
            else if br.1 ≤ target ∧ target < br.2 then some i else none
          | none => none
        else none
      | _ => none
    match here with
    | some i => some i
    | none =>
      e.children.foldl
        (fun acc c =>
          match fiapCheckWalk fuel si content target name c with
          | some x => some x
          | none => acc)
        none
termination_by structural fuel

/-- Embedding of `findIdentifierAtPosition` (rename.go): the last-recorded
(innermost) candidate, refined via `checkWalk` when it looks like a plain
identifier that could be a comprehension loop variable. -/
def findIdentifierAtPosition (fuel : Nat) (si : SourceInfo) (content : List Nat)
    (target : Nat) (tree : CelExpr) : Option IdentifierInfo :=
  match (fiapWalk fuel si content target tree).getLast? with
  | none => none
  | some best =>
    if best.kind = .topLevel ∧ ¬(containsBytes content (46 :: strBytes best.name) = true) then
      match fiapCheckWalk fuel si content target best.name tree with
      | some i => some { best with exprID := i }
      | none => some best
    else some best

/-- Embedding of `containsIdentifier` (rename.go). -/
def containsIdentifier (fuel : Nat) (e : CelExpr) (identName : String) (targetID : Nat) : Bool :=
  match fuel with
  | 0 => false
  | fuel + 1 =>
    match e with
    | .ident i n => if n = identName then i = targetID else false
    | _ => e.children.any (fun c => containsIdentifier fuel c identName targetID)
termination_by structural fuel

/-- Embedding of `isUsedInComprehension` (rename.go): the loop variable
appears (by id) in arguments 1 and beyond of the macro call. -/
def isUsedInComprehension (fuel : Nat) (loopVarID : Nat) (loopVarName : String)
    (args : List CelExpr) : Bool :=
  (args.drop 1).any (fun a => containsIdentifier fuel a loopVarName loopVarID)

/-- Embedding of `findLoopVarScope` (rename.go): first (closest-enclosing
in pre-order) comprehension-shaped construct declaring `identName` whose
loop variable the target is (or is used as). -/
def findLoopVarScope (fuel : Nat) (exprID : Nat) (identName : String)
    (e : CelExpr) : Option (Nat × String) :=
  match fuel with
  | 0 => none
  | fuel + 1 =>
    let hereComp : Option (Nat × String) :=
      match e with
      | .comprehension i _ lv _ _ _ _ _ =>
        if lv = identName ∧ exprID = i then some (i, "unknown") else none
      | _ => none
    let hereCall : Option (Nat × String) :=
      match e with
      | .call i f _ args =>
        let isComprehension :=
          f = "map" || f = "filter" || f = "all" || f = "exists" || f = "exists_one"
        if isComprehension ∧ args.length ≥ 2 then
          match args.head? with
          | some (.ident lvId lv) =>
            if lv = identName ∧ (lvId = exprID ∨ isUsedInComprehension fuel lvId lv args) then
              some (i, f)
            else none
          | _ => none
        else none
      | _ => none
    match hereComp with
    | some r => some r
    | none =>
      match hereCall with
      | some r => some r
      | none =>
        e.children.foldl
          (fun acc c =>
            match acc with
            | some r => some r
            | none => findLoopVarScope fuel exprID identName c)
          none
termination_by structural fuel

/-- Embedding of `determineIdentifierScope` (rename.go). -/
def determineIdentifierScope (fuel : Nat) (exprID : Nat) (identName : String)
    (tree : CelExpr) : RenameScope :=
  match findLoopVarScope fuel exprID identName tree with
  | some (i, m) => .loopVar i m
  | none => .topLevel

/-- Embedding of `findComprehensionByID` (rename.go): a CallKind node with
the target id; a ComprehensionKind node with the target id yields nothing
(the caller then retries with `findComprehensionExprByID`). -/
def findComprehensionByID (fuel : Nat) (e : CelExpr) (targetID : Nat) : Option CelExpr :=
  match fuel with
  | 0 => none
  | fuel + 1 =>
    match e with
    | .call i _ _ _ =>
      if i = targetID then some e
      else
        e.children.foldl
          (fun acc c =>
            match acc with
            | some r => some r
            | none => findComprehensionByID fuel c targetID)
          none
    | .comprehension i _ _ _ _ _ _ _ =>
      if i = targetID then none
      else
        e.children.foldl
          (fun acc c =>
            match acc with
            | some r => some r
            | none => findComprehensionByID fuel c targetID)
          none
    | _ =>
      e.children.foldl
        (fun acc c =>
          match acc with
          | some r => some r
          | none => findComprehensionByID fuel c targetID)
        none
termination_by structural fuel

/-- Embedding of `findComprehensionExprByID` (rename.go). -/
def findComprehensionExprByID (fuel : Nat) (e : CelExpr) (targetID : Nat) : Option CelExpr :=
  match fuel with
  | 0 => none
  | fuel + 1 =>
    match e with
    | .comprehension i _ _ _ _ _ _ _ =>
      if i = targetID then some e
      else
        e.children.foldl
          (fun acc c =>
            match acc with
            | some r => some r
            | none => findComprehensionExprByID fuel c targetID)
          none
    | _ =>
      e.children.foldl
        (fun acc c =>
          match acc with
          | some r => some r
          | none => findComprehensionExprByID fuel c targetID)
        none
termination_by structural fuel

/-- The protocol range of a byte range of `content`. -/
def rangeOfBytes (content : List Nat) (bs be : Nat) : Range :=
  let s := byteOffsetToLineCol content bs
  let e := byteOffsetToLineCol content be
  ⟨⟨s.1, s.2⟩, ⟨e.1, e.2⟩⟩

/-- Embedding of `collectReferencesInExpr` / `CollectIdentifierReferences`
(walker helpers): every IdentKind node named `identName` that has an
offset range contributes its range, in traversal order.  (The Location's
URI is the constant request URI and is omitted.) -/
def collectReferencesInExpr (fuel : Nat) (si : SourceInfo) (content : List Nat)
    (identName : String) (e : CelExpr) : List Range :=
  match fuel with
  | 0 => []
  | fuel + 1 =>
    let own :=
      match e with
      | .ident i n =>
        if n = identName then
          match getOffsetRange si i with
          | some (rs, re) =>
            let br := celOffsetRangeToByteRange content rs re
            [rangeOfBytes content br.1 br.2]
          | none => []
        else []
      | _ => []
    own ++ e.children.flatMap (collectReferencesInExpr fuel si content identName)
termination_by structural fuel

/-- Embedding of `CollectIdentifierReferences` (walker helpers). -/
def CollectIdentifierReferences (fuel : Nat) (e : CelExpr) (si : SourceInfo)
    (content : List Nat) (identName : String) : List Range :=
  collectReferencesInExpr fuel si content identName e

/-- Embedding of `collectOccurrencesInExpr` / `CollectIdentifierOccurrences`
(walker helpers): as for references, but producing text edits replacing
each occurrence with `newName`. -/
def collectOccurrencesInExpr (fuel : Nat) (si : SourceInfo) (content : List Nat)
    (identName newName : String) (e : CelExpr) : List TextEdit :=
  match fuel with
  | 0 => []
  | fuel + 1 =>
    let own :=
      match e with
      | .ident i n =>
        if n = identName then
          match getOffsetRange si i with
          | some (rs, re) =>
            let br := celOffsetRangeToByteRange content rs re
            [⟨rangeOfBytes content br.1 br.2, newName⟩]
          | none => []
        else []
      | _ => []
    own ++ e.children.flatMap (collectOccurrencesInExpr fuel si content identName newName)
termination_by structural fuel

/-- Embedding of `CollectIdentifierOccurrences` (walker helpers). -/
def CollectIdentifierOccurrences (fuel : Nat) (e : CelExpr) (si : SourceInfo)
    (content : List Nat) (identName newName : String) : List TextEdit :=
  collectOccurrencesInExpr fuel si content identName newName e

/-- The textual search for a loop-variable declaration site: the first
word-boundary-delimited occurrence of `name` scanning forward from
`start` (`for i := byteStop; i < len(fileContent)-len(loopVarName)+1; i++`).
The loop bound is computed in `Int` as in Go. -/
def declScanGo (fuel : Nat) (content : List Nat) (i : Nat) (name : List Nat) : Option Nat :=
  match fuel with
  | 0 => none
  | fuel + 1 =>
    if (i : Int) < (content.length : Int) - (name.length : Int) + 1 then
      if startsWithBytes name (content.drop i) && wordBoundary content i (i + name.length) then
        some i
      else declScanGo fuel content (i + 1) name
    else none
termination_by structural fuel

/-- Embedding of `collectReferencesInComprehension` (rename.go): the macro
CallExpr shape — the declaration site is argument 0 (when it carries an
offset range), then arguments 1+ are searched. -/
def collectReferencesInComprehension (fuel : Nat) (si : SourceInfo) (content : List Nat)
    (identName : String) (e : CelExpr) : List Range :=
  match e with
  | .call _ _ _ args =>
    if args.length < 2 then []
    else
      let declRanges :=
        match args.head? with
        | some (.ident i n) =>
          if n = identName then
            match getOffsetRange si i with
            | some (rs, re) =>
              let br := celOffsetRangeToByteRange content rs re
              [rangeOfBytes content br.1 br.2]
            | none => []
          else []
        | _ => []
      declRanges ++
        (args.drop 1).flatMap (CollectIdentifierReferences fuel · si content identName)
  | _ => []

/-- Embedding of `collectReferencesInComprehensionExpr` (rename.go): the
expanded ComprehensionKind shape — the declaration site is located
textually after the iteration range (only when the iteration range has an
offset), then every comprehension sub-expression is searched. -/
def collectReferencesInComprehensionExpr (fuel : Nat) (si : SourceInfo) (content : List Nat)
    (identName : String) (e : CelExpr) : List Range :=
  match e with
  | .comprehension _ iterRange lv _ accuInit loopCond loopStep result =>
    let declRanges :=
      if lv = identName then
        match getOffsetRange si iterRange.exprId with
        | some (rs, re) =>
          let br := celOffsetRangeToByteRange content rs re
          match declScanGo (content.length + 1) content br.2 (strBytes lv) with
          | some i => [rangeOfBytes content i (i + (strBytes lv).length)]
          | none => []
        | none => []
      else []
    declRanges ++
      ([iterRange, accuInit, loopCond, loopStep, result].flatMap
        (CollectIdentifierReferences fuel · si content identName))
  | _ => []

/-- Embedding of `collectIdentifiersInComprehensionExpr` (rename.go): the
rename analogue of the previous function.  NOTE the source difference
preserved here: when the iteration range has no offset, the textual scan
still runs from byte 0 (`byteStop` is initialised from the zero
OffsetRange) instead of being skipped. -/
def collectIdentifiersInComprehensionExpr (fuel : Nat) (si : SourceInfo) (content : List Nat)
    (identName newName : String) (e : CelExpr) : List TextEdit :=
  match e with
  | .comprehension _ iterRange lv _ accuInit loopCond loopStep result =>
    let declEdits :=
      if lv = identName then
        let byteStop :=
          match getOffsetRange si iterRange.exprId with
          | some (rs, re) => (celOffsetRangeToByteRange content rs re).2
          | none => 0
        match declScanGo (content.length + 1) content byteStop (strBytes lv) with
        | some i => [⟨rangeOfBytes content i (i + (strBytes lv).length), newName⟩]
        | none => []
      else []
    declEdits ++
      ([iterRange, accuInit, loopCond, loopStep, result].flatMap
        (CollectIdentifierOccurrences fuel · si content identName newName))
  | _ => []

/-- Embedding of `collectIdentifiersInComprehension` (rename.go): the
rename analogue of the CallExpr shape. -/
def collectIdentifiersInComprehension (fuel : Nat) (si : SourceInfo) (content : List Nat)
    (identName newName : String) (e : CelExpr) : List TextEdit :=
  match e with
  | .call _ _ _ args =>
    if args.length < 2 then []
    else
      let declEdits :=
        match args.head? with
        | some (.ident i n) =>
          if n = identName then
            match getOffsetRange si i with
            | some (rs, re) =>
              let br := celOffsetRangeToByteRange content rs re
              [⟨rangeOfBytes content br.1 br.2, newName⟩]
            | none => []
          else []
        | _ => []
      declEdits ++
        (args.drop 1).flatMap (CollectIdentifierOccurrences fuel · si content identName newName)
  | _ => []

/-- Embedding of `findAllReferences` (rename.go). -/
def findAllReferences (fuel : Nat) (tree : CelExpr) (si : SourceInfo) (content : List Nat)
    (s : RenameScope) (identName : String) : List Range :=
  match s with
  | .loopVar compId _ =>
    match findComprehensionByID fuel tree compId with
    | some compCall => collectReferencesInComprehension fuel si content identName compCall
    | none =>
      match findComprehensionExprByID fuel tree compId with
      | some compExpr => collectReferencesInComprehensionExpr fuel si content identName compExpr
      | none => []
  | .topLevel => CollectIdentifierReferences fuel tree si content identName

/-- Embedding of `findAllOccurrences` (rename.go). -/
def findAllOccurrences (fuel : Nat) (tree : CelExpr) (si : SourceInfo) (content : List Nat)
    (s : RenameScope) (identName newName : String) : List TextEdit :=
  match s with
  | .loopVar compId _ =>
    match findComprehensionByID fuel tree compId with
    | some compCall => collectIdentifiersInComprehension fuel si content identName newName compCall
    | none =>
      match findComprehensionExprByID fuel tree compId with
      | some compExpr =>
        collectIdentifiersInComprehensionExpr fuel si content identName newName compExpr
      | none => []
  | .topLevel => CollectIdentifierOccurrences fuel tree si content identName newName

/-- Embedding of `findIdentifierByName` (rename.go): first IdentKind node
with the given name whose byte range contains the target offset. -/
def findIdentifierByName (fuel : Nat) (si : SourceInfo) (content : List Nat)
    (identName : List Nat) (target : Nat) (e : CelExpr) : Option IdentifierInfo :=
  match fuel with
  | 0 => none
  | fuel + 1 =>
    let here : Option IdentifierInfo :=
      match e with
      | .ident i n =>
        if strBytes n = identName then
          match getOffsetRange si i with
          | some (rs, re) =>
            let br := celOffsetRangeToByteRange content rs re
            if br.1 ≤ target ∧ target < br.2 then some ⟨n, i, .topLevel⟩ else none
          | none => none
        else none
      | _ => none
    match here with
    | some r => some r
    | none =>
      e.children.foldl
        (fun acc c =>
          match acc with
          | some r => some r
          | none => findIdentifierByName fuel si content identName target c)
        none
termination_by structural fuel

/-- Backward word-boundary scan of the rename fallback
(`for start > 0 && isIdentifierChar(content[start-1]) start--`). -/
def scanWordStart (content : List Nat) : Nat → Nat
  | 0 => 0
  | s + 1 => if isIdentifierChar (byteAt content s) then scanWordStart content s else s + 1

/-- Forward word-boundary scan of the rename fallback. -/
def scanWordEndF (fuel : Nat) (content : List Nat) (e : Nat) : Nat :=
  match fuel with
  | 0 => e
  | fuel + 1 =>
    if e < content.length ∧ isIdentifierChar (byteAt content e) = true then
      scanWordEndF fuel content (e + 1)
    else e
termination_by structural fuel

/-- The identifier resolution of `computeRename`/`computeReferences`:
`findIdentifierAtPosition`, with the textual word-boundary fallback via
`findIdentifierByName` when it finds nothing. -/
def resolveIdentifier (fuel : Nat) (si : SourceInfo) (content : List Nat)
    (target : Nat) (tree : CelExpr) : Option IdentifierInfo :=
  match findIdentifierAtPosition fuel si content target tree with
  | some info => some info
  | none =>
    let s := scanWordStart content target
    let e := scanWordEndF (content.length + 1) content target
    if s < e then findIdentifierByName fuel si content (sliceBytes content s e) target tree
    else none

/-- Embedding of `computeRename` (rename.go), downstream of the external
parse (the tree and source info stand for `celEnv.Parse(f.content)`):
validate the new name, convert the protocol position, resolve the
identifier, determine its scope, and collect the edits.  `.error` carries
a failed name validation; `.ok none` is the "no rename" soft failure. -/
def computeRename (fuel : Nat) (content : List Nat) (tree : CelExpr) (si : SourceInfo)
    (line col : Nat) (newName : String) : Except String (Option (List TextEdit)) :=
  match validateNewName newName with
  | some err => .error err
  | none =>
    let t := lineColToByteOffset content line col
    if t < 0 ∨ (content.length : Int) ≤ t then .ok none
    else
      match resolveIdentifier fuel si content t.toNat tree with
      | none => .ok none
      | some info =>
        let sc := determineIdentifierScope fuel info.exprID info.name tree
        let edits := findAllOccurrences fuel tree si content sc info.name newName
        if edits.isEmpty then .ok none else .ok (some edits)

/-! ### Modelled parser outputs for the two scenario documents -/

/-- The document `x + x + x` as bytes. -/
def contentXPlus : List Nat := strBytes "x + x + x"

/-- Modelled from the spec: the external parser's tree for `x + x + x` —
left-associated global calls of the internal operator `_+_` over three
identifier nodes. -/
def xPlusTree : CelExpr :=
  .call 5 "_+_" none
    [ .call 4 "_+_" none [.ident 1 "x", .ident 2 "x"]
    , .ident 3 "x" ]

/-- Modelled from the spec: rune offset ranges for `x + x + x` — the
identifiers at their source positions, the operator calls at their
operator tokens. -/
def xPlusInfo : SourceInfo :=
  ⟨[ (1, 0, 1), (2, 4, 5), (3, 8, 9), (4, 2, 3), (5, 6, 7) ]⟩

/-- The document `[1,2,3].map(x, x * 2)` as bytes. -/
def contentMapDoc : List Nat := strBytes "[1,2,3].map(x, x * 2)"

/-- Modelled from the spec: the external parser's tree for
`[1,2,3].map(x, x * 2)` with macro-call tracking — the map macro is
expanded into a ComprehensionKind node (iteration variable `x`,
accumulator `__result__`); the original sub-expressions (`[1,2,3]`, the
`x` use, `x * 2`) keep their nodes, while macro-synthesised nodes are
fresh. -/
def mapDocTree : CelExpr :=
  .comprehension 14
    (.list 4 [.lit 1, .lit 2, .lit 3])
    "x" "__result__"
    (.list 11 [])
    (.lit 12)
    (.call 10 "_+_" none
      [ .ident 8 "__result__"
      , .list 9 [.call 7 "_*_" none [.ident 5 "x", .lit 6]] ])
    (.ident 13 "__result__")

/-- Modelled from the spec: offset ranges for `[1,2,3].map(x, x * 2)` —
source-derived nodes carry their rune ranges ( `[1,2,3]` is 0..7, the `x`
use is 15..16, `x * 2` at its operator), the expanded comprehension
carries an empty range at the macro call (spec §4.4: macro expansion may
leave the comprehension without a usable range), and purely synthetic
nodes (accumulator, loop condition, loop step, result) have none. -/
def mapDocInfo : SourceInfo :=
  ⟨[ (1, 1, 2), (2, 3, 4), (3, 5, 6), (4, 0, 7), (5, 15, 16), (6, 19, 20)
   , (7, 17, 18), (14, 11, 11) ]⟩

-- sentinel: definitions are appended above this line

-- sentinel: theorems are appended below this line

/-! ### Frame codec lemmas -/

theorem atoiDigits_append (xs ys : List Nat) :
    ∀ acc, atoiDigits acc (xs ++ ys) = (atoiDigits acc xs).bind (fun a => atoiDigits a ys) := by
  induction xs with
  | nil => intro acc; simp [atoiDigits]
  | cons c cs ih =>
    intro acc
    by_cases h : 48 ≤ c ∧ c ≤ 57 <;> simp [atoiDigits, h, ih]

theorem toDigitsBE_val :
    ∀ fuel n acc, n < fuel →
      atoiDigits acc (toDigitsBE fuel n) = some (acc * 10 ^ (toDigitsBE fuel n).length + n) := by
  intro fuel
  induction fuel with
  | zero => intro n acc h; omega
  | succ fuel ih =>
    intro n acc h
    by_cases h10 : n < 10
    · have hc : 48 ≤ n + 48 ∧ n + 48 ≤ 57 := by omega
      simp [toDigitsBE, h10, atoiDigits, hc]
      try omega
    · have hdivn : n / 10 < n := Nat.div_lt_self (by omega) (by omega)
      have hdiv : n / 10 < fuel := by omega
      simp only [toDigitsBE, if_neg h10]
      rw [atoiDigits_append, ih (n / 10) acc hdiv]
      have hm : 48 ≤ n % 10 + 48 ∧ n % 10 + 48 ≤ 57 := by
        have := Nat.mod_lt n (show 0 < 10 by omega)
        omega
      simp [Option.bind, atoiDigits, hm, List.length_append, pow_succ]
      have hnm : 10 * (n / 10) + n % 10 = n := Nat.div_add_mod n 10
      ring_nf
      omega

theorem toDigitsBE_mem :
    ∀ fuel n d, d ∈ toDigitsBE fuel n → 48 ≤ d ∧ d ≤ 57 := by
  intro fuel
  induction fuel with
  | zero => intro n d h; simp [toDigitsBE] at h
  | succ fuel ih =>
    intro n d h
    by_cases h10 : n < 10
    · simp [toDigitsBE, h10] at h
      omega
    · simp only [toDigitsBE, if_neg h10, List.mem_append, List.mem_singleton] at h
      rcases h with h | h
      · exact ih _ _ h
      · have := Nat.mod_lt n (show 0 < 10 by omega)
        omega

theorem toDigitsBE_last (fuel n : Nat) (h : 0 < fuel) :
    ∃ t d, toDigitsBE fuel n = t ++ [d] ∧ 48 ≤ d ∧ d ≤ 57 := by
  cases fuel with
  | zero => omega
  | succ fuel =>
    by_cases h10 : n < 10
    · exact ⟨[], n + 48, by simp [toDigitsBE, h10], by omega, by omega⟩
    · refine ⟨toDigitsBE fuel (n / 10), n % 10 + 48, by simp [toDigitsBE, h10], by omega, ?_⟩
      have := Nat.mod_lt n (show 0 < 10 by omega)
      omega

theorem toDigitsBE_head (fuel n : Nat) (h : 0 < fuel) :
    ∃ d t, toDigitsBE fuel n = d :: t ∧ 48 ≤ d ∧ d ≤ 57 := by
  rcases hl : toDigitsBE fuel n with _ | ⟨d, t⟩
  · exfalso
    obtain ⟨t', d', heq, -, -⟩ := toDigitsBE_last fuel n h
    rw [heq] at hl
    simp at hl
  · have hd : d ∈ toDigitsBE fuel n := by rw [hl]; simp
    obtain ⟨h1, h2⟩ := toDigitsBE_mem fuel n d hd
    exact ⟨d, t, rfl, h1, h2⟩

theorem atoi_digitsOf (n : Nat) : atoi (digitsOf n) = some (n : Int) := by
  obtain ⟨d, t, heq, h48, h57⟩ := toDigitsBE_head (n + 1) n (by omega)
  have hval : atoiDigits 0 (digitsOf n) = some n := by
    have := toDigitsBE_val (n + 1) n 0 (by omega)
    simpa [digitsOf] using this
  have hd45 : ¬(d = 45 || d = 43) = true := by simp; omega
  have hd45' : d ≠ 45 := by omega
  unfold digitsOf at hval ⊢
  rw [heq] at hval ⊢
  simp only [atoi, hd45, Bool.false_eq_true, if_false, List.isEmpty_cons, hval, if_neg hd45']
  try simp [hd45']

theorem readString_append (l r : List Nat) (h : 10 ∉ l) :
    readString (l ++ 10 :: r) = some (l ++ [10], r) := by
  induction l with
  | nil => simp [readString]
  | cons c cs ih =>
    have hc : c ≠ 10 := by intro hc; exact h (by simp [hc])
    have hcs : 10 ∉ cs := fun hm => h (by simp [hm])
    simp [readString, hc, ih hcs]

theorem trimRightCRLF_last (xs : List Nat) (d : Nat) (h : (d = 13 || d = 10) = false) :
    trimRightCRLF (xs ++ [d]) = xs ++ [d] := by
  simp [trimRightCRLF, List.dropWhile, h]

theorem trimRightCRLF_strip (xs : List Nat) (c : Nat) (h : (c = 13 || c = 10) = true) :
    trimRightCRLF (xs ++ [c]) = trimRightCRLF xs := by
  simp [trimRightCRLF, List.dropWhile, h]

theorem cutPfx_self (p r : List Nat) : cutPfx p (p ++ r) = some r := by
  induction p with
  | nil => simp [cutPfx]
  | cons c cs ih => simp [cutPfx, ih]

theorem readHeaders_frame (k n : Nat) (acc : Int) (body : List Nat) :
    readHeaders (k + 2) (clHeaderBytes ++ digitsOf n ++ [13, 10, 13, 10] ++ body) acc =
      .ok ((n : Int), body) := by
  have h10 : 10 ∉ clHeaderBytes ++ digitsOf n ++ [13] := by
    intro hm
    simp only [List.mem_append, List.mem_singleton] at hm
    rcases hm with (hm | hm) | hm
    · revert hm; decide
    · have := toDigitsBE_mem (n + 1) n 10 hm
      omega
    · omega
  have hsplit :
      clHeaderBytes ++ digitsOf n ++ [13, 10, 13, 10] ++ body =
        (clHeaderBytes ++ digitsOf n ++ [13]) ++ 10 :: (13 :: 10 :: body) := by
    simp
  have htrim : trimRightCRLF ((clHeaderBytes ++ digitsOf n ++ [13]) ++ [10]) =
      clHeaderBytes ++ digitsOf n := by
    obtain ⟨t, d, heq, h48, h57⟩ := toDigitsBE_last (n + 1) n (by omega)
    have h1 : (clHeaderBytes ++ digitsOf n ++ [13]) ++ [10] =
        ((clHeaderBytes ++ digitsOf n) ++ [13]) ++ [10] := by simp
    rw [h1, trimRightCRLF_strip _ 10 (by simp), trimRightCRLF_strip _ 13 (by simp)]
    have h2 : clHeaderBytes ++ digitsOf n = (clHeaderBytes ++ t) ++ [d] := by
      simp [digitsOf, heq]
    rw [h2, trimRightCRLF_last _ d (by simp; omega)]
  have hne : clHeaderBytes ++ digitsOf n ≠ [] := by simp [clHeaderBytes]
  rw [hsplit]
  simp only [readHeaders, readString_append _ _ h10, htrim, if_neg hne, cutPfx_self,
    atoi_digitsOf]
  have hr2 : readString (13 :: 10 :: body) = some ([13, 10], body) := by
    have := readString_append [13] body (by decide)
    simpa using this
  simp only [readHeaders, hr2]
  have : trimRightCRLF [13, 10] = [] := by decide
  simp [this]

/-- C2: For every value that marshals to JSON (its marshaled bytes are a
non-empty payload), writing it as one frame with the connection's frame
writer (`Conn.writeMessage`) and then reading one frame with `readFrame`
from the resulting bytes yields exactly the marshaled payload, with nothing
left over; and if the stream ends before the declared `Content-Length` count
of body bytes has been read (a frame whose body `short` is shorter than the
declared length), `readFrame` returns an error rather than a shorter
payload. -/
theorem claim_C2_frame_roundtrip (payload short : List Nat)
    (hp : payload ≠ []) (hb : short.length < payload.length) :
    readFrame (writeMessage payload) = .ok (payload, []) ∧
    readFrame (clHeaderBytes ++ digitsOf payload.length ++ [13, 10, 13, 10] ++ short) =
      .error .eof := by
  have hlen : ∀ body : List Nat,
      (clHeaderBytes ++ digitsOf payload.length ++ [13, 10, 13, 10] ++ body).length + 1 =
        ((clHeaderBytes ++ digitsOf payload.length ++ [13, 10, 13, 10] ++ body).length - 1) + 2 := by
    intro body
    simp [clHeaderBytes]
  have hpos : 0 < payload.length := List.length_pos.mpr hp
  constructor
  · show readFrame (clHeaderBytes ++ digitsOf payload.length ++ [13, 10, 13, 10] ++ payload) =
      .ok (payload, [])
    rw [readFrame, hlen payload, readHeaders_frame]
    have h0 : ¬((payload.length : Int) = 0) := by
      intro h
      omega
    have h1 : ¬((payload.length : Int) < 0) := by omega
    have h2 : ¬(payload.length < ((payload.length : Int)).toNat) := by simp
    simp [h0, h1, h2]
  · rw [readFrame, hlen short, readHeaders_frame]
    have h0 : ¬((payload.length : Int) = 0) := by
      intro h
      omega
    have h1 : ¬((payload.length : Int) < 0) := by omega
    have h2 : short.length < ((payload.length : Int)).toNat := by simpa using hb
    simp [h0, h1, h2]
    exact hb

/-- Witness for C2 at the concrete payload `{}` (bytes 123, 125) and a
one-byte truncated body. -/
theorem claim_C2_frame_roundtrip_witness :
    (([123, 125] : List Nat) ≠ [] ∧ ([123] : List Nat).length < ([123, 125] : List Nat).length) ∧
    (readFrame (writeMessage [123, 125]) = .ok ([123, 125], []) ∧
      readFrame (clHeaderBytes ++ digitsOf ([123, 125] : List Nat).length ++
        [13, 10, 13, 10] ++ [123]) = .error .eof) :=
  ⟨⟨by decide, by decide⟩, claim_C2_frame_roundtrip [123, 125] [123] (by decide) (by decide)⟩

/-! ### Dispatch theorem (C1) -/

/-- C1 evaluation at the failing inputs: contrary to the claim (and to the
repository's own tests, which call these methods and assert success),
`server.handle` answers every one of the spec's extended feature methods —
formatting, rename, prepare-rename, references, document highlighting,
completion, signature help, inlay hints — with the `default` arm, i.e. a
method-not-found error, while hover, diagnostics and semantic tokens are
routed. -/
theorem claim_C1_extended_methods_not_routed :
    (∀ m ∈ extendedFeatureMethods, handle m = .methodNotFound) ∧
    handle "textDocument/hover" = .routed "hover" ∧
    handle "textDocument/diagnostic" = .routed "diagnosticFull" ∧
    handle "textDocument/semanticTokens/full" = .routed "semanticTokensFull" := by
  refine ⟨?_, rfl, rfl, rfl⟩
  decide

/-! ### Connection pending-call lemmas (C3) -/

theorem connStep_call_seq {s : ConnState} (hw : s.seq + 1 < UINT64_MOD) :
    (connStep s .call).1.seq = s.seq + 1 := by
  show (s.seq + 1) % UINT64_MOD = s.seq + 1
  exact Nat.mod_eq_of_lt hw

theorem connStep_call_pend {s : ConnState} (h : ConnInv s) :
    (connStep s .call).1.pend = s.seq :: s.pend := by
  have hnp : s.seq ∉ s.pend := fun hm => absurd (h.2.1 _ hm) (by omega)
  show (if s.seq ∈ s.pend then s.pend else s.seq :: s.pend) = s.seq :: s.pend
  rw [if_neg hnp]

theorem connStep_call_out (s : ConnState) : (connStep s .call).2 = [] := rfl

theorem connStep_inv_call {s : ConnState} (h : ConnInv s) (hw : s.seq + 1 < UINT64_MOD) :
    ConnInv (connStep s .call).1 := by
  refine ⟨?_, ?_, ?_⟩
  · rw [connStep_call_seq hw]
    exact hw
  · rw [connStep_call_seq hw, connStep_call_pend h]
    intro id hid
    rcases List.mem_cons.mp hid with rfl | hm
    · omega
    · exact Nat.lt_succ_of_lt (h.2.1 id hm)
  · rw [connStep_call_pend h]
    exact List.nodup_cons.mpr ⟨fun hm => absurd (h.2.1 _ hm) (by omega), h.2.2⟩

theorem connStep_other (s : ConnState) (e : ConnEvent) (hne : e ≠ .call) :
    (connStep s e).1.seq = s.seq := by
  cases e with
  | call => exact absurd rfl hne
  | cancel id => by_cases hm : id ∈ s.pend <;> simp [connStep, hm]
  | response rid => by_cases hm : rid.num ∈ s.pend <;> simp [connStep, hm]
  | closeLoop => simp [connStep]

theorem connStep_inv_other {s : ConnState} (e : ConnEvent) (hne : e ≠ .call)
    (h : ConnInv s) : ConnInv (connStep s e).1 := by
  obtain ⟨hseq, hlt, hnd⟩ := h
  cases e with
  | call => exact absurd rfl hne
  | cancel id =>
    by_cases hm : id ∈ s.pend <;> simp only [connStep, hm, if_pos, if_neg, not_false_iff]
    · exact ⟨hseq, fun j hj => hlt j (s.pend.mem_of_mem_erase hj), hnd.erase id⟩
    · exact ⟨hseq, hlt, hnd⟩
  | response rid =>
    by_cases hm : rid.num ∈ s.pend <;> simp only [connStep, hm, if_pos, if_neg, not_false_iff]
    · exact ⟨hseq, fun j hj => hlt j (s.pend.mem_of_mem_erase hj), hnd.erase rid.num⟩
    · exact ⟨hseq, hlt, hnd⟩
  | closeLoop => exact ⟨hseq, by simp [connStep], by simp [connStep]⟩

theorem connRun_excluded {id : Nat} :
    ∀ (es : List ConnEvent) (s : ConnState), ConnInv s →
      s.seq + callCount es < UINT64_MOD → id < s.seq → id ∉ s.pend →
      id ∉ ((connRun s es).2.map Prod.fst) ∧
        id ∉ (connRun s es).1.pend ∧ id < (connRun s es).1.seq ∧ ConnInv (connRun s es).1 := by
  intro es
  induction es with
  | nil =>
    intro s hInv _ hlt hnp
    exact ⟨by simp [connRun], by simp [connRun, hnp], by simpa [connRun], by simpa [connRun]⟩
  | cons e es ih =>
    intro s hInv hw hlt hnp
    by_cases hc : e = ConnEvent.call
    · subst hc
      have hw1 : s.seq + 1 < UINT64_MOD := by
        simp only [callCount, callWeight] at hw
        omega
      have hInv' := connStep_inv_call hInv hw1
      have hw' : (connStep s .call).1.seq + callCount es < UINT64_MOD := by
        rw [connStep_call_seq hw1]
        simp only [callCount, callWeight] at hw
        omega
      have hlt' : id < (connStep s .call).1.seq := by
        rw [connStep_call_seq hw1]
        omega
      have hnp' : id ∉ (connStep s .call).1.pend := by
        rw [connStep_call_pend hInv]
        intro hm
        rcases List.mem_cons.mp hm with rfl | hm2
        · omega
        · exact hnp hm2
      obtain ⟨a, b, c, d⟩ := ih (connStep s .call).1 hInv' hw' hlt' hnp'
      refine ⟨?_, b, c, d⟩
      simp only [connRun, List.map_append, List.mem_append]
      rintro (h | h)
      · rw [connStep_call_out] at h
        simp at h
      · exact a h
    · have hInv' := connStep_inv_other e hc hInv
      have hseq := connStep_other s e hc
      have hw' : (connStep s e).1.seq + callCount es < UINT64_MOD := by
        rw [hseq]
        cases e with
        | call => exact absurd rfl hc
        | cancel j => simpa [callCount, callWeight] using hw
        | response rid => simpa [callCount, callWeight] using hw
        | closeLoop => simpa [callCount, callWeight] using hw
      have hstep : id ∉ (connStep s e).2.map Prod.fst ∧ id ∉ (connStep s e).1.pend := by
        cases e with
        | call => exact absurd rfl hc
        | cancel j =>
          by_cases hm : j ∈ s.pend <;> simp only [connStep, hm, if_pos, if_neg, not_false_iff]
          · constructor
            · simp
              intro hj
              exact hnp (hj ▸ hm)
            · intro hmem
              exact hnp (s.pend.mem_of_mem_erase hmem)
          · simp [hm]
            exact hnp
        | response rid =>
          by_cases hm : rid.num ∈ s.pend <;>
            simp only [connStep, hm, if_pos, if_neg, not_false_iff]
          · constructor
            · simp
              intro hj
              exact hnp (hj ▸ hm)
            · intro hmem
              exact hnp (s.pend.mem_of_mem_erase hmem)
          · simp [hm]
            exact hnp
        | closeLoop =>
          constructor
          · simp only [connStep, List.map_map]
            intro hm
            simp at hm
            exact hnp hm
          · simp [connStep]
      obtain ⟨hout, hpend'⟩ := hstep
      have hlt' : id < (connStep s e).1.seq := by
        rw [hseq]
        exact hlt
      obtain ⟨a, b, c, d⟩ := ih (connStep s e).1 hInv' hw' hlt' hpend'
      refine ⟨?_, b, c, d⟩
      simp only [connRun, List.map_append, List.mem_append]
      rintro (h | h)
      · exact hout h
      · exact a h

theorem connRun_inv (es : List ConnEvent) (s : ConnState) (h : ConnInv s)
    (hw : s.seq + callCount es < UINT64_MOD) : ConnInv (connRun s es).1 := by
  induction es generalizing s with
  | nil => simpa [connRun]
  | cons e es ih =>
    by_cases hc : e = ConnEvent.call
    · subst hc
      have hw1 : s.seq + 1 < UINT64_MOD := by
        simp only [callCount, callWeight] at hw
        omega
      refine ih (connStep s .call).1 (connStep_inv_call h hw1) ?_
      rw [connStep_call_seq hw1]
      simp only [callCount, callWeight] at hw
      omega
    · refine ih (connStep s e).1 (connStep_inv_other e hc h) ?_
      rw [connStep_other s e hc]
      cases e with
      | call => exact absurd rfl hc
      | cancel j => simpa [callCount, callWeight] using hw
      | response rid => simpa [callCount, callWeight] using hw
      | closeLoop => simpa [callCount, callWeight] using hw

theorem connRun_nodup (es : List ConnEvent) (s : ConnState) (h : ConnInv s)
    (hw : s.seq + callCount es < UINT64_MOD) :
    ((connRun s es).2.map Prod.fst).Nodup := by
  induction es generalizing s with
  | nil => simp [connRun]
  | cons e es ih =>
    cases e with
    | call =>
      have hw1 : s.seq + 1 < UINT64_MOD := by
        simp only [callCount, callWeight] at hw
        omega
      have hw' : (connStep s .call).1.seq + callCount es < UINT64_MOD := by
        rw [connStep_call_seq hw1]
        simp only [callCount, callWeight] at hw
        omega
      have hrest := ih (connStep s .call).1 (connStep_inv_call h hw1) hw'
      simp only [connRun, List.map_append]
      rw [connStep_call_out]
      simpa using hrest
    | cancel j =>
      have hw' : (connStep s (.cancel j)).1.seq + callCount es < UINT64_MOD := by
        rw [connStep_other s _ (by simp)]
        simpa [callCount, callWeight] using hw
      have hInv' := connStep_inv_other (s := s) (.cancel j) (by simp) h
      have hrest := ih (connStep s (.cancel j)).1 hInv' hw'
      by_cases hm : j ∈ s.pend
      · have hjnp : j ∉ (connStep s (.cancel j)).1.pend := by
          simp only [connStep, hm, if_pos]
          exact h.2.2.not_mem_erase
        have hjlt' : j < (connStep s (.cancel j)).1.seq := by
          rw [connStep_other s _ (by simp)]
          exact h.2.1 j hm
        have hexc := connRun_excluded es (connStep s (.cancel j)).1 hInv' hw' hjlt' hjnp
        simp only [connRun, List.map_append]
        refine List.Nodup.append ?_ hrest ?_
        · simp [connStep, hm]
        · intro x hx1 hx2
          simp [connStep, hm] at hx1
          subst hx1
          exact hexc.1 hx2
      · have hout : (connStep s (.cancel j)).2 = [] := by simp [connStep, hm]
        simp only [connRun, List.map_append]
        rw [hout]
        simpa using hrest
    | response rid =>
      have hw' : (connStep s (.response rid)).1.seq + callCount es < UINT64_MOD := by
        rw [connStep_other s _ (by simp)]
        simpa [callCount, callWeight] using hw
      have hInv' := connStep_inv_other (s := s) (.response rid) (by simp) h
      have hrest := ih (connStep s (.response rid)).1 hInv' hw'
      by_cases hm : rid.num ∈ s.pend
      · have hjnp : rid.num ∉ (connStep s (.response rid)).1.pend := by
          simp only [connStep, hm, if_pos]
          exact h.2.2.not_mem_erase
        have hjlt' : rid.num < (connStep s (.response rid)).1.seq := by
          rw [connStep_other s _ (by simp)]
          exact h.2.1 rid.num hm
        have hexc := connRun_excluded es (connStep s (.response rid)).1 hInv' hw' hjlt' hjnp
        simp only [connRun, List.map_append]
        refine List.Nodup.append ?_ hrest ?_
        · simp [connStep, hm]
        · intro x hx1 hx2
          simp [connStep, hm] at hx1
          subst hx1
          exact hexc.1 hx2
      · have hout : (connStep s (.response rid)).2 = [] := by simp [connStep, hm]
        simp only [connRun, List.map_append]
        rw [hout]
        simpa using hrest
    | closeLoop =>
      have hw' : (connStep s .closeLoop).1.seq + callCount es < UINT64_MOD := by
        rw [connStep_other s _ (by simp)]
        simpa [callCount, callWeight] using hw
      have hInv' := connStep_inv_other (s := s) .closeLoop (by simp) h
      have hrest := ih (connStep s .closeLoop).1 hInv' hw'
      simp only [connRun, List.map_append]
      refine List.Nodup.append ?_ hrest ?_
      · simpa [connStep, List.map_map, Function.comp_def, List.map_id] using h.2.2
      · intro x hx1 hx2
        simp only [connStep, List.map_map] at hx1
        simp at hx1
        have hxlt : x < (connStep s .closeLoop).1.seq := by
          rw [connStep_other s _ (by simp)]
          exact h.2.1 x hx1
        have hxnp : x ∉ (connStep s .closeLoop).1.pend := by simp [connStep]
        exact (connRun_excluded es (connStep s .closeLoop).1 hInv' hw' hxlt hxnp).1 hx2

theorem connRun_persist {id : Nat} :
    ∀ (es : List ConnEvent) (s : ConnState), id ∈ s.pend →
      (∀ e ∈ es, ¬resolves e id) → id ∈ (connRun s es).1.pend := by
  intro es
  induction es with
  | nil =>
    intro s h _
    simpa [connRun]
  | cons e es ih =>
    intro s h hno
    have hne := hno e (by simp)
    have hstep : id ∈ (connStep s e).1.pend := by
      cases e with
      | call =>
        show id ∈ (if s.seq ∈ s.pend then s.pend else s.seq :: s.pend)
        by_cases hm : s.seq ∈ s.pend
        · rw [if_pos hm]
          exact h
        · rw [if_neg hm]
          exact List.mem_cons_of_mem _ h
      | cancel j =>
        have hj : j ≠ id := fun hj => hne (by simpa [resolves] using hj)
        by_cases hm : j ∈ s.pend <;> simp only [connStep, hm, if_pos, if_neg, not_false_iff]
        · exact (List.mem_erase_of_ne (fun h2 => hj h2.symm)).mpr h
        · simpa [hm]
      | response rid =>
        have hj : rid.num ≠ id := fun hj => hne (by simpa [resolves] using hj)
        by_cases hm : rid.num ∈ s.pend <;>
          simp only [connStep, hm, if_pos, if_neg, not_false_iff]
        · exact (List.mem_erase_of_ne (fun h2 => hj h2.symm)).mpr h
        · simpa [hm]
      | closeLoop => exact absurd (by simp [resolves]) hne
    exact ih (connStep s e).1 hstep (fun e' he' => hno e' (by simp [he']))

/-- C3 counterexample: with call id 0 pending, an inbound response whose
wire id is the STRING "abc" — an id matching no pending entry, since every
outgoing call id is numeric — is NOT dropped: the read loop matches purely
by `resp.ID.Num` (part_010:564), and the zero value of `Num` for a string
(or absent) id is 0, so the response resolves pending call 0 and removes
its entry, contradicting the claim's stray-reply clause. -/
theorem claim_C3_counterexample :
    (∀ callId ∈ (⟨1, [0]⟩ : ConnState).pend,
      ¬wireIDMatches ⟨0, "abc", true⟩ callId) ∧
    connStep ⟨1, [0]⟩ (.response ⟨0, "abc", true⟩) = (⟨1, []⟩, [(0, .reply)]) := by
  constructor
  · decide
  · rfl

/-- C3 amended: the connection's pending-call bookkeeping, stated over the
wrapping `uint64` counter and the `Num`-keyed reply matching the source
actually performs.  From any state satisfying the invariant, over a trace
whose call events do not wrap the counter: (a) the invariant is preserved
and no id is ever resolved twice; (b) registration increments the counter
(strictly, absent wrap) and assigns an id that is not currently pending;
(c) a registered id stays in the pending map until an event resolves it —
a response whose unmarshalled id has a matching `Num` field, caller
cancellation, or read-loop termination; (d) a response whose id's `Num`
field is pending resolves exactly that call, removing only its entry —
regardless of the id's string tag, since matching consults only `Num`;
(e) a response whose id's `Num` field matches no pending entry is dropped
without touching the state or resolving anything; (f) read-loop
termination resolves every remaining pending call with the closure signal
and empties the map. -/
theorem claim_C3_pending_call_invariant_amended (s : ConnState) (es : List ConnEvent)
    (id : Nat) (hInv : ConnInv s) (hw : s.seq + callCount es < UINT64_MOD)
    (hpend : id ∈ s.pend) (hnores : ∀ e ∈ es, ¬resolves e id) :
    (ConnInv (connRun s es).1 ∧ ((connRun s es).2.map Prod.fst).Nodup) ∧
    ((s.seq + 1 < UINT64_MOD → (connStep s .call).1.seq = s.seq + 1) ∧ s.seq ∉ s.pend) ∧
    id ∈ (connRun s es).1.pend ∧
    (∀ rid : WireID, rid.num ∈ s.pend →
      connStep s (.response rid) =
        ({ s with pend := s.pend.erase rid.num }, [(rid.num, .reply)]) ∧
      ∀ j ∈ s.pend, j ≠ rid.num → j ∈ (connStep s (.response rid)).1.pend) ∧
    (∀ rid : WireID, rid.num ∉ s.pend → connStep s (.response rid) = (s, [])) ∧
    connStep s .closeLoop = ({ s with pend := [] }, s.pend.map (fun i => (i, .closed))) := by
  refine ⟨⟨connRun_inv es s hInv hw, connRun_nodup es s hInv hw⟩,
    ⟨fun hw1 => connStep_call_seq hw1, fun hm => absurd (hInv.2.1 _ hm) (by omega)⟩,
    connRun_persist es s hpend hnores, ?_, ?_, rfl⟩
  · intro rid hm
    constructor
    · simp [connStep, hm]
    · intro j hj hne
      simp only [connStep, hm, if_pos]
      exact (List.mem_erase_of_ne hne).mpr hj
  · intro rid hm
    simp [connStep, hm]

/-- Witness for C3's amended theorem: a connection with call id 0 pending,
run against a further call and a numeric stray response with id 7, far
from the counter's wrap point. -/
theorem claim_C3_pending_call_invariant_amended_witness :
    (ConnInv ⟨1, [0]⟩ ∧
      (1 : Nat) + callCount [ConnEvent.call, ConnEvent.response ⟨7, "", false⟩] < UINT64_MOD ∧
      (0 : Nat) ∈ ([0] : List Nat) ∧
      (∀ e ∈ [ConnEvent.call, ConnEvent.response ⟨7, "", false⟩], ¬resolves e 0)) ∧
    ((ConnInv (connRun ⟨1, [0]⟩ [ConnEvent.call, ConnEvent.response ⟨7, "", false⟩]).1 ∧
        ((connRun ⟨1, [0]⟩ [ConnEvent.call, ConnEvent.response ⟨7, "", false⟩]).2.map
          Prod.fst).Nodup) ∧
      (((1 : Nat) + 1 < UINT64_MOD → (connStep ⟨1, [0]⟩ .call).1.seq = 1 + 1) ∧
        (1 : Nat) ∉ ([0] : List Nat)) ∧
      (0 : Nat) ∈ (connRun ⟨1, [0]⟩ [ConnEvent.call, ConnEvent.response ⟨7, "", false⟩]).1.pend ∧
      (∀ rid : WireID, rid.num ∈ ([0] : List Nat) →
        connStep ⟨1, [0]⟩ (.response rid) =
          (⟨1, ([0] : List Nat).erase rid.num⟩, [(rid.num, .reply)]) ∧
        ∀ j ∈ ([0] : List Nat), j ≠ rid.num →
          j ∈ (connStep ⟨1, [0]⟩ (.response rid)).1.pend) ∧
      (∀ rid : WireID, rid.num ∉ ([0] : List Nat) →
        connStep ⟨1, [0]⟩ (.response rid) = (⟨1, [0]⟩, [])) ∧
      connStep ⟨1, [0]⟩ .closeLoop = (⟨1, []⟩, ([0] : List Nat).map (fun i => (i, .closed)))) :=
  ⟨⟨by decide, by decide, by decide, by decide⟩,
    claim_C3_pending_call_invariant_amended ⟨1, [0]⟩
      [ConnEvent.call, ConnEvent.response ⟨7, "", false⟩] 0
      (by decide) (by decide) (by decide) (by decide)⟩


/-! ### Diagnostics theorems (C4) -/

theorem issuesToDiagnostics_severity (content : List Nat) (errs : List CelIssue)
    (sev : DiagnosticSeverity) :
    ∀ d ∈ issuesToDiagnostics content errs sev, d.severity = sev := by
  intro d hd
  simp only [issuesToDiagnostics, List.mem_map] at hd
  obtain ⟨e, -, rfl⟩ := hd
  rfl

/-- C4: `computeDiagnostics` maps analysis failures to severities and cleans
messages as the spec states: when parsing fails every diagnostic has error
severity; when parsing succeeds but type-checking fails every diagnostic
has warning severity (with messages passed through `cleanMessage`); the
document `1 + "hello"` yields exactly one warning-severity diagnostic whose
message contains `'+'` and not the internal spelling `_+_`; and the
document `1 +` yields (only) error-severity diagnostics. -/
theorem claim_C4_diagnostic_severity :
    (∀ (content : List Nat) (analysis : CelAnalysis),
      analysis.parseErrors ≠ [] →
      ∀ d ∈ computeDiagnostics content analysis, d.severity = .error) ∧
    (∀ (content : List Nat) (analysis : CelAnalysis),
      analysis.parseErrors = [] → analysis.checkErrors ≠ [] →
      ∀ d ∈ computeDiagnostics content analysis,
        d.severity = .warning ∧
          ∃ e ∈ analysis.checkErrors, d.message = cleanMessage e.message) ∧
    ((computeDiagnostics contentOnePlusHello analysisOnePlusHello).length = 1 ∧
      ∀ d ∈ computeDiagnostics contentOnePlusHello analysisOnePlusHello,
        d.severity = .warning ∧
          strContains d.message (quoteStr "+") = true ∧
          strContains d.message "_+_" = false) ∧
    (computeDiagnostics contentOnePlus analysisOnePlus ≠ [] ∧
      ∀ d ∈ computeDiagnostics contentOnePlus analysisOnePlus, d.severity = .error) := by
  refine ⟨?_, ?_, ⟨by decide, by decide⟩, by decide, by decide⟩
  · intro content analysis hpe d hd
    by_cases hblank : content.all isSpaceByte
    · simp [computeDiagnostics, hblank] at hd
    · simp only [computeDiagnostics, hblank, if_neg, if_pos, hpe, ne_eq,
        not_false_iff, Bool.false_eq_true] at hd
      exact issuesToDiagnostics_severity content analysis.parseErrors .error d hd
  · intro content analysis hpe hce d hd
    by_cases hblank : content.all isSpaceByte
    · simp [computeDiagnostics, hblank] at hd
    · simp only [computeDiagnostics, hblank, hpe, hce, ne_eq, not_true_eq_false,
        not_false_iff, if_neg, if_pos, Bool.false_eq_true] at hd
      simp only [issuesToDiagnostics, List.mem_map] at hd
      obtain ⟨e, he, rfl⟩ := hd
      exact ⟨rfl, e, he, rfl⟩

/-- Witness for C4 at the two example documents. -/
theorem claim_C4_diagnostic_severity_witness :
    (analysisOnePlus.parseErrors ≠ [] ∧ analysisOnePlusHello.parseErrors = [] ∧
      analysisOnePlusHello.checkErrors ≠ []) ∧
    (∀ d ∈ computeDiagnostics contentOnePlus analysisOnePlus, d.severity = .error) ∧
    (∀ d ∈ computeDiagnostics contentOnePlusHello analysisOnePlusHello,
      d.severity = .warning ∧
        ∃ e ∈ analysisOnePlusHello.checkErrors, d.message = cleanMessage e.message) :=
  ⟨⟨by decide, by decide, by decide⟩,
    claim_C4_diagnostic_severity.1 contentOnePlus analysisOnePlus (by decide),
    claim_C4_diagnostic_severity.2.1 contentOnePlusHello analysisOnePlusHello
      (by decide) (by decide)⟩

/-! ### Hover selection theorems (C7) -/

theorem selectFold_some (t : Int) :
    ∀ (l : List HoverInfo) (b : HoverInfo),
      ∃ h, selectFold t l (some b) = some h ∧
        (h = b ∨ (h ∈ l ∧ hoverContains t h = true)) ∧
        hoverWidth h ≤ hoverWidth b ∧
        ∀ x ∈ l, hoverContains t x = true → hoverWidth h ≤ hoverWidth x := by
  intro l
  induction l with
  | nil => intro b; exact ⟨b, rfl, Or.inl rfl, le_refl _, by simp⟩
  | cons c cs ih =>
    intro b
    by_cases hc : hoverContains t c = true
    · by_cases hw : hoverWidth c < hoverWidth b
      · obtain ⟨h, heq, hmem, hle, hall⟩ := ih c
        refine ⟨h, ?_, ?_, ?_, ?_⟩
        · simp [selectFold, hc, hw, heq]
        · rcases hmem with rfl | ⟨hm, hcont⟩
          · exact Or.inr ⟨by simp, hc⟩
          · exact Or.inr ⟨by simp [hm], hcont⟩
        · omega
        · intro x hx hcx
          rcases List.mem_cons.mp hx with rfl | hx'
          · exact hle
          · exact hall x hx' hcx
      · obtain ⟨h, heq, hmem, hle, hall⟩ := ih b
        refine ⟨h, ?_, ?_, hle, ?_⟩
        · simp [selectFold, hc, hw, heq]
        · rcases hmem with rfl | ⟨hm, hcont⟩
          · exact Or.inl rfl
          · exact Or.inr ⟨by simp [hm], hcont⟩
        · intro x hx hcx
          rcases List.mem_cons.mp hx with rfl | hx'
          · omega
          · exact hall x hx' hcx
    · obtain ⟨h, heq, hmem, hle, hall⟩ := ih b
      refine ⟨h, ?_, ?_, hle, ?_⟩
      · simp [selectFold, hc, heq]
      · rcases hmem with rfl | ⟨hm, hcont⟩
        · exact Or.inl rfl
        · exact Or.inr ⟨by simp [hm], hcont⟩
      · intro x hx hcx
        rcases List.mem_cons.mp hx with rfl | hx'
        · exact absurd hcx hc
        · exact hall x hx' hcx

theorem selectFold_keep (t : Int) :
    ∀ (l : List HoverInfo) (b : HoverInfo),
      (∀ x ∈ l, hoverContains t x = true → hoverWidth b ≤ hoverWidth x) →
      selectFold t l (some b) = some b := by
  intro l
  induction l with
  | nil => intro b _; rfl
  | cons c cs ih =>
    intro b hall
    by_cases hc : hoverContains t c = true
    · have hble := hall c (by simp) hc
      have hw : ¬(hoverWidth c < hoverWidth b) := by omega
      simp only [selectFold, hc, if_pos, hw, if_neg, not_false_iff]
      exact ih b (fun x hx hcx => hall x (by simp [hx]) hcx)
    · simp only [selectFold, hc, Bool.false_eq_true, if_neg, not_false_iff]
      exact ih b (fun x hx hcx => hall x (by simp [hx]) hcx)

/-- C7 counterexample: two candidates with the same range (hence equal
width) both containing the target; the selection keeps the
first-traversed candidate "A" and does not select the deepest-visited-last
candidate "B", contradicting the claim's tie-breaking direction. -/
theorem claim_C7_counterexample :
    selectBestHover [⟨0, 5, "A"⟩, ⟨0, 5, "B"⟩] 2 = some ⟨0, 5, "A"⟩ ∧
    hoverContains 2 ⟨0, 5, "B"⟩ = true ∧
    hoverWidth (⟨0, 5, "B"⟩ : HoverInfo) = hoverWidth (⟨0, 5, "A"⟩ : HoverInfo) ∧
    selectBestHover [⟨0, 5, "A"⟩, ⟨0, 5, "B"⟩] 2 ≠ some ⟨0, 5, "B"⟩ := by
  refine ⟨rfl, rfl, rfl, ?_⟩
  intro h
  simp [selectBestHover, selectFold, hoverContains, hoverWidth] at h

/-- C7 amended: among all hover candidates whose byte range contains the
target offset, `computeHover`'s selection returns a containing candidate of
minimal range width; when several containing candidates have equal minimal
width, the tie is broken in favor of the candidate recorded EARLIEST in
traversal order (the current best is only replaced by a strictly smaller
candidate), not the deepest-visited-last one. -/
theorem claim_C7_smallest_hover_amended (t : Int) :
    (∀ (hovers : List HoverInfo) (h : HoverInfo), selectBestHover hovers t = some h →
      h ∈ hovers ∧ hoverContains t h = true ∧
        ∀ x ∈ hovers, hoverContains t x = true → hoverWidth h ≤ hoverWidth x) ∧
    (∀ (first : HoverInfo) (rest : List HoverInfo), hoverContains t first = true →
      (∀ x ∈ rest, hoverContains t x = true → hoverWidth first ≤ hoverWidth x) →
      selectBestHover (first :: rest) t = some first) := by
  constructor
  · intro hovers h hsel
    induction hovers with
    | nil => simp [selectBestHover, selectFold] at hsel
    | cons c cs ih =>
      by_cases hc : hoverContains t c = true
      · have hstep : selectBestHover (c :: cs) t = selectFold t cs (some c) := by
          simp [selectBestHover, selectFold, hc]
        rw [hstep] at hsel
        obtain ⟨h', heq, hmem, hle, hall⟩ := selectFold_some t cs c
        rw [heq] at hsel
        cases hsel
        rcases hmem with rfl | ⟨hm, hcont⟩
        · exact ⟨by simp, hc, fun x hx hcx => by
            rcases List.mem_cons.mp hx with rfl | hx'
            · exact le_refl _
            · exact hall x hx' hcx⟩
        · refine ⟨by simp [hm], hcont, fun x hx hcx => ?_⟩
          rcases List.mem_cons.mp hx with rfl | hx'
          · exact hle
          · exact hall x hx' hcx
      · have hstep : selectBestHover (c :: cs) t = selectBestHover cs t := by
          simp [selectBestHover, selectFold, hc]
        rw [hstep] at hsel
        obtain ⟨hm, hcont, hall⟩ := ih hsel
        refine ⟨by simp [hm], hcont, fun x hx hcx => ?_⟩
        rcases List.mem_cons.mp hx with rfl | hx'
        · exact absurd hcx hc
        · exact hall x hx' hcx
  · intro first rest hfirst hall
    have hstep : selectBestHover (first :: rest) t = selectFold t rest (some first) := by
      simp [selectBestHover, selectFold, hfirst]
    rw [hstep]
    exact selectFold_keep t rest first hall

/-- Witness for C7's amended theorem: a concrete candidate list with a
strictly smaller containing candidate, and the keep-first behaviour on an
equal-width pair. -/
theorem claim_C7_smallest_hover_amended_witness :
    (selectBestHover [⟨0, 9, "outer"⟩, ⟨2, 5, "inner"⟩] 3 = some ⟨2, 5, "inner"⟩ ∧
      (⟨2, 5, "inner"⟩ : HoverInfo) ∈ [(⟨0, 9, "outer"⟩ : HoverInfo), ⟨2, 5, "inner"⟩] ∧
      hoverContains 3 ⟨2, 5, "inner"⟩ = true ∧
      (∀ x ∈ [(⟨0, 9, "outer"⟩ : HoverInfo), ⟨2, 5, "inner"⟩],
        hoverContains 3 x = true → hoverWidth ⟨2, 5, "inner"⟩ ≤ hoverWidth x)) ∧
    (hoverContains 2 ⟨0, 5, "A"⟩ = true ∧
      (∀ x ∈ [(⟨0, 5, "B"⟩ : HoverInfo)],
        hoverContains 2 x = true → hoverWidth ⟨0, 5, "A"⟩ ≤ hoverWidth x) ∧
      selectBestHover [⟨0, 5, "A"⟩, ⟨0, 5, "B"⟩] 2 = some ⟨0, 5, "A"⟩) :=
  ⟨⟨by decide,
    ((claim_C7_smallest_hover_amended 3).1 [⟨0, 9, "outer"⟩, ⟨2, 5, "inner"⟩]
      ⟨2, 5, "inner"⟩ (by decide)).1,
    ((claim_C7_smallest_hover_amended 3).1 [⟨0, 9, "outer"⟩, ⟨2, 5, "inner"⟩]
      ⟨2, 5, "inner"⟩ (by decide)).2.1,
    ((claim_C7_smallest_hover_amended 3).1 [⟨0, 9, "outer"⟩, ⟨2, 5, "inner"⟩]
      ⟨2, 5, "inner"⟩ (by decide)).2.2⟩,
   ⟨by decide, by decide,
    (claim_C7_smallest_hover_amended 2).2 ⟨0, 5, "A"⟩ [⟨0, 5, "B"⟩]
      (by decide) (by decide)⟩⟩

/-! ### Document store theorems (C8, C10) -/

theorem storeGet_storeSet_self (files : List (String × DocFile)) (uri : String) (f : DocFile) :
    storeGet (storeSet files uri f) uri = some f := by
  induction files with
  | nil => simp [storeGet, storeSet]
  | cons p rest ih =>
    obtain ⟨u, g⟩ := p
    by_cases hu : u = uri
    · simp [storeGet, storeSet, hu]
    · simp [storeGet, storeSet, hu, ih]

theorem storeGet_storeSet_other (files : List (String × DocFile)) (uri u : String)
    (f : DocFile) (h : u ≠ uri) : storeGet (storeSet files uri f) u = storeGet files u := by
  have h' : ¬(uri = u) := fun hh => h hh.symm
  induction files with
  | nil =>
    simp only [storeSet, storeGet]
    rw [if_neg h']
  | cons p rest ih =>
    obtain ⟨w, g⟩ := p
    simp only [storeSet]
    by_cases hw : w = uri
    · subst hw
      simp only [if_pos rfl, storeGet]
      rw [if_neg h', if_neg h']
    · simp only [if_neg hw, storeGet]
      by_cases hwu : w = u
      · rw [if_pos hwu, if_pos hwu]
      · rw [if_neg hwu, if_neg hwu]
        exact ih

theorem applyEvent_other (files : List (String × DocFile)) (e : DocEvent) (uri : String)
    (h : eventVersionFor uri e = none) :
    storeGet (applyEvent files e) uri = storeGet files uri := by
  cases e with
  | opened u v t =>
    have hu : ¬(u = uri) := by
      intro hc
      simp [eventVersionFor, hc] at h
    show storeGet (storeSet files u ⟨v, t⟩) uri = storeGet files uri
    exact storeGet_storeSet_other files u uri _ (fun hh => hu hh.symm)
  | change u v cs =>
    have hu : ¬(u = uri) := by
      intro hc
      simp [eventVersionFor, hc] at h
    cases hg : storeGet files u with
    | none => simp [applyEvent, didChange, hg]
    | some f =>
      cases cs with
      | nil =>
        have hdc : didChange files u v [] =
            .ok (storeSet files u ⟨v, f.content⟩, (u, v, f.content)) := by
          simp [didChange, hg]
        simp only [applyEvent, hdc]
        exact storeGet_storeSet_other files u uri _ (fun hh => hu hh.symm)
      | cons c' cs' =>
        have hdc : didChange files u v (c' :: cs') =
            .ok (storeSet files u ⟨v, c'⟩, (u, v, c')) := by
          simp [didChange, hg]
        simp only [applyEvent, hdc]
        exact storeGet_storeSet_other files u uri _ (fun hh => hu hh.symm)

theorem applyEvent_opened_self (files : List (String × DocFile)) (uri : String)
    (v : Int) (t : String) :
    storeGet (applyEvent files (.opened uri v t)) uri = some ⟨v, t⟩ := by
  show storeGet (storeSet files uri ⟨v, t⟩) uri = some ⟨v, t⟩
  exact storeGet_storeSet_self files uri _

theorem applyEvent_change_self (files : List (String × DocFile)) (uri : String)
    (v : Int) (cs : List String) (f : DocFile) (h : storeGet files uri = some f) :
    ∃ nc, storeGet (applyEvent files (.change uri v cs)) uri = some ⟨v, nc⟩ := by
  cases cs with
  | nil =>
    have hdc : didChange files uri v [] =
        .ok (storeSet files uri ⟨v, f.content⟩, (uri, v, f.content)) := by
      simp [didChange, h]
    exact ⟨f.content, by simp only [applyEvent, hdc]; exact storeGet_storeSet_self files uri _⟩
  | cons c' cs' =>
    have hdc : didChange files uri v (c' :: cs') =
        .ok (storeSet files uri ⟨v, c'⟩, (uri, v, c')) := by
      simp [didChange, h]
    exact ⟨c', by simp only [applyEvent, hdc]; exact storeGet_storeSet_self files uri _⟩

/-- C8 counterexample: the store records whatever version the latest
notification carries — after `didOpen(u, version 5)` followed by
`didChange(u, version 3)` the stored version drops from 5 to 3, so the
claim's unconditional non-decrease over "any sequence of didOpen and
didChange notifications" is false on the code (nothing enforces it). -/
theorem claim_C8_counterexample :
    storeGet (applyEvents [] [.opened "u" 5 "t"]) "u" = some ⟨5, "t"⟩ ∧
    storeGet (applyEvents [] [.opened "u" 5 "t", .change "u" 3 []]) "u" = some ⟨3, "t"⟩ ∧
    (3 : Int) < 5 :=
  ⟨rfl, rfl, by omega⟩

/-- C8 amended: the stored version for a URI always equals the version of
the latest notification applied to it; consequently it is non-decreasing
across any sequence of didOpen/didChange notifications PROVIDED the
versions carried by the client's notifications for that URI are themselves
non-decreasing (which the protocol requires of clients but the server does
not enforce). -/
theorem claim_C8_version_monotone_amended :
    ∀ (es : List DocEvent) (files : List (String × DocFile)) (uri : String)
      (v : Int) (c : String),
      storeGet files uri = some ⟨v, c⟩ →
      versionsMono uri v es = true →
      ∃ v' c', storeGet (applyEvents files es) uri = some ⟨v', c'⟩ ∧ v ≤ v' := by
  intro es
  induction es with
  | nil =>
    intro files uri v c hstart _
    exact ⟨v, c, hstart, le_refl v⟩
  | cons e es ih =>
    intro files uri v c hstart hmono
    cases hv : eventVersionFor uri e with
    | none =>
      have hget : storeGet (applyEvent files e) uri = some ⟨v, c⟩ := by
        rw [applyEvent_other files e uri hv]
        exact hstart
      have hmono' : versionsMono uri v es = true := by
        rw [versionsMono, hv] at hmono
        exact hmono
      obtain ⟨v', c', hg, hle⟩ := ih (applyEvent files e) uri v c hget hmono'
      exact ⟨v', c', hg, hle⟩
    | some v2 =>
      have hmono' : v ≤ v2 ∧ versionsMono uri v2 es = true := by
        rw [versionsMono, hv] at hmono
        simpa using hmono
      have hget : ∃ nc, storeGet (applyEvent files e) uri = some ⟨v2, nc⟩ := by
        cases e with
        | opened u v3 t =>
          have hu : u = uri ∧ v3 = v2 := by
            by_cases hc : u = uri <;> simp [eventVersionFor, hc] at hv <;> exact ⟨hc, hv⟩
          obtain ⟨rfl, rfl⟩ := hu
          exact ⟨t, applyEvent_opened_self files u _ t⟩
        | change u v3 cs =>
          have hu : u = uri ∧ v3 = v2 := by
            by_cases hc : u = uri <;> simp [eventVersionFor, hc] at hv <;> exact ⟨hc, hv⟩
          obtain ⟨rfl, rfl⟩ := hu
          exact applyEvent_change_self files u _ cs ⟨v, c⟩ hstart
      obtain ⟨nc, hget⟩ := hget
      obtain ⟨v', c', hg, hle⟩ := ih (applyEvent files e) uri v2 nc hget hmono'.2
      exact ⟨v', c', hg, le_trans hmono'.1 hle⟩

/-- Witness for C8's amended theorem: open at version 1, then two changes
with non-decreasing versions 2 and 2. -/
theorem claim_C8_version_monotone_amended_witness :
    (storeGet [("u", ⟨1, "t"⟩)] "u" = some ⟨1, "t"⟩ ∧
      versionsMono "u" 1 [.change "u" 2 ["s"], .change "u" 2 []] = true) ∧
    (∃ v' c',
      storeGet (applyEvents [("u", ⟨1, "t"⟩)] [.change "u" 2 ["s"], .change "u" 2 []]) "u" =
        some ⟨v', c'⟩ ∧ (1 : Int) ≤ v') :=
  ⟨⟨by decide, by decide⟩,
    claim_C8_version_monotone_amended [.change "u" 2 ["s"], .change "u" 2 []]
      [("u", ⟨1, "t"⟩)] "u" 1 "t" (by decide) (by decide)⟩

/-- C10: a didChange for an open URI with an empty ContentChanges list
updates that document's stored version to the notification's version while
leaving its text unchanged, leaves every other document untouched, and
publishes diagnostics computed from the unchanged text (the published
triple carries the old content). -/
theorem claim_C10_didChange_empty (files : List (String × DocFile)) (uri : String)
    (v v' : Int) (c : String) (h : storeGet files uri = some ⟨v, c⟩) :
    didChange files uri v' [] = .ok (storeSet files uri ⟨v', c⟩, (uri, v', c)) ∧
    storeGet (storeSet files uri ⟨v', c⟩) uri = some ⟨v', c⟩ ∧
    (∀ u, u ≠ uri → storeGet (storeSet files uri ⟨v', c⟩) u = storeGet files u) := by
  refine ⟨by simp [didChange, h], storeGet_storeSet_self files uri _, ?_⟩
  intro u hu
  exact storeGet_storeSet_other files uri u _ hu

/-- Witness for C10 on a two-document store. -/
theorem claim_C10_didChange_empty_witness :
    (storeGet [("a", ⟨1, "x"⟩), ("b", ⟨4, "y"⟩)] "b" = some ⟨4, "y"⟩) ∧
    (didChange [("a", ⟨1, "x"⟩), ("b", ⟨4, "y"⟩)] "b" 9 [] =
      .ok (storeSet [("a", ⟨1, "x"⟩), ("b", ⟨4, "y"⟩)] "b" ⟨9, "y"⟩, ("b", 9, "y")) ∧
      storeGet (storeSet [("a", ⟨1, "x"⟩), ("b", ⟨4, "y"⟩)] "b" ⟨9, "y"⟩) "b" = some ⟨9, "y"⟩ ∧
      (∀ u, u ≠ "b" →
        storeGet (storeSet [("a", ⟨1, "x"⟩), ("b", ⟨4, "y"⟩)] "b" ⟨9, "y"⟩) u =
          storeGet [("a", ⟨1, "x"⟩), ("b", ⟨4, "y"⟩)] u)) :=
  ⟨by decide,
    claim_C10_didChange_empty [("a", ⟨1, "x"⟩), ("b", ⟨4, "y"⟩)] "b" 4 9 "y" (by decide)⟩

/-! ### Scope resolution and rename theorems (C5, C6) -/

/-- C5: for `[1,2,3].map(x, x * 2)`, resolving the identifier at the first
occurrence of `x` (byte offset 12, i.e. line 0 column 12) yields the
comprehension node as the identifier's expr, its scope is
`LoopVariable` bound to that map comprehension (id 14) — not `TopLevel` —
and occurrence enumeration within that scope returns exactly the two
ranges of the two `x` occurrences (columns 12–13 and 15–16) and nothing
else. -/
theorem claim_C5_loop_variable_scope :
    lineColToByteOffset contentMapDoc 0 12 = 12 ∧
    findIdentifierAtPosition 100 mapDocInfo contentMapDoc 12 mapDocTree =
      some ⟨"x", 14, .topLevel⟩ ∧
    determineIdentifierScope 100 14 "x" mapDocTree = .loopVar 14 "unknown" ∧
    determineIdentifierScope 100 14 "x" mapDocTree ≠ .topLevel ∧
    findAllReferences 100 mapDocTree mapDocInfo contentMapDoc (.loopVar 14 "unknown") "x" =
      [⟨⟨0, 12⟩, ⟨0, 13⟩⟩, ⟨⟨0, 15⟩, ⟨0, 16⟩⟩] :=
  ⟨rfl, rfl, rfl, by decide, rfl⟩

/-- C6: for `x + x + x`, `computeRename` at line 0, character 0 with new
name `value` returns exactly 3 text edits, whose ranges start at character
offsets 0, 4 and 8 of line 0 (each one character wide, replaced by
`value`). -/
theorem claim_C6_top_level_rename :
    computeRename 100 contentXPlus xPlusTree xPlusInfo 0 0 "value" =
      .ok (some
        [ ⟨⟨⟨0, 0⟩, ⟨0, 1⟩⟩, "value"⟩
        , ⟨⟨⟨0, 4⟩, ⟨0, 5⟩⟩, "value"⟩
        , ⟨⟨⟨0, 8⟩, ⟨0, 9⟩⟩, "value"⟩ ]) :=
  rfl
